import Mathlib

/-!
Verification of the redb core (page store and multimap overlay), as a shallow
embedding of the provided sources:

* `src/tree_store/page_store/buddy_allocator.rs` — the per-region buddy
  allocator (`BuddyAllocatorMut`): `init_new`, `alloc`, `record_alloc`, `free`,
  `resize`, `trailing_free_pages`, `highest_free_order`, page counts.
* `src/tree_store/page_store/page_manager.rs` — the region tracker and the
  transactional engine (`TransactionalMemory`): `allocate`, `free`,
  `free_if_uncommitted`, `commit`, `non_durable_commit`,
  `rollback_uncommitted_writes`, `try_shrink`.
* `src/multimap_table.rs` — the multimap overlay with its
  Inline/Subtree `DynamicCollection` encoding.

Collaborators whose sources are not part of the excerpt (the bitmap
`BtreeBitmap`, `DatabaseLayout`, the header and physical-storage layer, and
the single-value B-tree) are modelled from the specification; each such
definition carries a doc comment starting with `Modelled from the spec:`.

A bitmap is represented by the finite set of its clear bits, so a buddy
allocator is a list of finite sets (index = order, membership = block free),
and machine integers are `Nat` (the source arithmetic never overflows: page
counts are below `2^32` and all quantities here stay well below that).
-/

set_option maxHeartbeats 1000000

namespace Redb

/-! ## Constants (page_manager.rs) -/

def MAX_MAX_PAGE_ORDER : ℕ := 20

def MIN_USABLE_PAGES : ℕ := 10

def NUM_REGIONS : ℕ := 1000

/-! ## Bitmap collaborator -/

/-- Modelled from the spec: `bitmap.rs` (`BtreeBitmap`) is not in the provided
sources. Spec section 4.1 fixes its contract: a fixed-capacity bitmap with
`find_first_unset`, `get`, `set`, `clear`, `count_unset`, `has_unset`. We model
a bitmap by the finite set of its clear (unset) bits; `get p` is `p ∉ s`,
`set p` is `s.erase p`, `clear p` is `insert p s`, and `find_first_unset` is
the least element of `s`. -/
def bmFindFirstUnset (s : Finset ℕ) : Option ℕ :=
  if h : s.Nonempty then some (s.min' h) else none

/-- Modelled from the spec: `BtreeBitmapMut::alloc` (used by
`BuddyAllocatorMut::alloc`) returns the first unset bit and sets it. -/
def bmAllocBit (s : Finset ℕ) : Option (ℕ × Finset ℕ) :=
  match bmFindFirstUnset s with
  | none => none
  | some x => some (x, s.erase x)

/-! ## Buddy allocator (buddy_allocator.rs) -/

/-- Fuel-based floor-log2 (structural, so that the kernel can evaluate it). -/
def log2Aux : ℕ → ℕ → ℕ
  | 0, _ => 0
  | fuel + 1, n => if n ≥ 2 then log2Aux fuel (n / 2) + 1 else 0

def natLog2 (n : ℕ) : ℕ := log2Aux n n

theorem natLog2_eq (n : ℕ) : natLog2 n = Nat.log2 n := by
  suffices h : ∀ fuel n, n ≤ fuel → log2Aux fuel n = Nat.log2 n from h n n le_rfl
  intro fuel
  induction fuel with
  | zero => intro n hn; interval_cases n; simp [log2Aux, Nat.log2]
  | succ fuel ih =>
    intro n hn
    rw [log2Aux, Nat.log2]
    by_cases h2 : n ≥ 2
    · simp only [h2, if_pos]
      rw [ih (n / 2) (by omega)]
    · simp [h2]

/-- Source: `calculate_usable_order(pages) = min(MAX_MAX_PAGE_ORDER,
64 - pages.leading_zeros() - 1)`, i.e. the floor of log2 for `pages ≥ 1`. -/
def calculateUsableOrder (pages : ℕ) : ℕ :=
  min MAX_MAX_PAGE_ORDER (natLog2 pages)

/-- State of one `BuddyAllocator`: `max_order`, `num_pages` and one bitmap per
order `0..=max_order` (`freeBits.getD o ∅` is the set of clear bits of the
order-`o` bitmap, i.e. the blocks recorded free at order `o`). -/
structure BuddyAllocator where
  maxOrder : ℕ
  numPages : ℕ
  freeBits : List (Finset ℕ)
deriving DecidableEq

namespace BuddyAllocator

/-- The order-`o` bitmap clear-bit set (`get_order`). -/
def order (a : BuddyAllocator) (o : ℕ) : Finset ℕ :=
  a.freeBits.getD o ∅

/-- Source: the while loop in `init_new` marking available pages at one order:
`while accounted + order_size <= num_pages { clear(accounted / order_size);
accounted += order_size }`. The fuel only bounds the iteration count. -/
def markAvailAux (numPages orderSize : ℕ) : ℕ → ℕ → Finset ℕ → Finset ℕ × ℕ
  | 0, accounted, s => (s, accounted)
  | fuel + 1, accounted, s =>
    if accounted + orderSize ≤ numPages then
      markAvailAux numPages orderSize fuel (accounted + orderSize)
        (insert (accounted / orderSize) s)
    else (s, accounted)

/-- Source: the `for order in (0..=max_order).rev()` loop of `init_new`.
Processes orders `o, o-1, …, 0`; returns the bitmaps indexed by order
(entry `i` is the order-`i` bitmap) and the final `accounted_pages`. -/
def initOrders (numPages : ℕ) : ℕ → ℕ → List (Finset ℕ) × ℕ
  | 0, accounted =>
    let r := markAvailAux numPages 1 (numPages + 1) accounted ∅
    ([r.1], r.2)
  | o + 1, accounted =>
    let r := markAvailAux numPages (2 ^ (o + 1)) (numPages + 1) accounted ∅
    let rest := initOrders numPages o r.2
    (rest.1 ++ [r.1], rest.2)

/-- Source: `BuddyAllocatorMut::init_new(data, num_pages, max_page_capacity)`:
all bits start set (all allocated), then available pages are cleared greedily
from the highest order down. -/
def initNew (numPages maxPageCapacity : ℕ) : BuddyAllocator :=
  let M := calculateUsableOrder maxPageCapacity
  { maxOrder := M, numPages := numPages, freeBits := (initOrders numPages M 0).1 }

/-- Source: `BuddyAllocatorMut::alloc(order)`. The fuel is
`max_order + 1 - order`, so fuel `0` is exactly the `order > max_order` case
that returns `None`. On a bitmap hit the bit is set (removed from the clear
set); otherwise a block of the next order is allocated and split: one child is
cleared (made free), the other returned. -/
def allocAux (a : BuddyAllocator) : ℕ → ℕ → Option (ℕ × BuddyAllocator)
  | 0, _ => none
  | fuel + 1, o =>
    match bmAllocBit (a.order o) with
    | some r => some (r.1, { a with freeBits := a.freeBits.set o r.2 })
    | none =>
      match allocAux a fuel (o + 1) with
      | none => none
      | some ua =>
        let upper := ua.1
        let a2 := ua.2
        some (upper * 2,
          { a2 with freeBits := a2.freeBits.set o (insert (upper * 2 + 1) (a2.order o)) })

def alloc (a : BuddyAllocator) (o : ℕ) : Option (ℕ × BuddyAllocator) :=
  allocAux a (a.maxOrder + 1 - o) o

/-- Source: `BuddyAllocatorMut::record_alloc(page_number, order)`. Fuel `0`
models the `assert!(order <= self.get_max_order())` failure. If the bit is
clear (free) it is set; otherwise the parent is recursively record-allocated
and the sibling `page ^ 1` is cleared. -/
def recordAllocAux : ℕ → BuddyAllocator → ℕ → ℕ → Option BuddyAllocator
  | 0, _, _, _ => none
  | fuel + 1, a, p, o =>
    if p ∈ a.order o then
      some { a with freeBits := a.freeBits.set o ((a.order o).erase p) }
    else
      match recordAllocAux fuel a (p / 2) (o + 1) with
      | none => none
      | some a2 =>
        some { a2 with freeBits := a2.freeBits.set o (insert (p ^^^ 1) (a2.order o)) }

def recordAlloc (a : BuddyAllocator) (p o : ℕ) : Option BuddyAllocator :=
  recordAllocAux (a.maxOrder + 1 - o) a p o

/-- Source: `BuddyAllocatorMut::free(page_number, order)`. Fuel
`max_order - order` makes fuel `0` exactly the `order == max_order` base case
(the wrapper rejects `order > max_order`, where the source would fail the
`assert!(order <= max_order)` inside `get_order_mut`). If the buddy
`page ^ 1` is allocated the page bit is cleared; otherwise the buddy is set
and the merged parent freed at the next order. -/
def freeAux : ℕ → BuddyAllocator → ℕ → ℕ → BuddyAllocator
  | 0, a, p, o => { a with freeBits := a.freeBits.set o (insert p (a.order o)) }
  | fuel + 1, a, p, o =>
    let s := a.order o
    if (p ^^^ 1) ∉ s then
      { a with freeBits := a.freeBits.set o (insert p s) }
    else
      freeAux fuel { a with freeBits := a.freeBits.set o (s.erase (p ^^^ 1)) } (p / 2) (o + 1)

def free (a : BuddyAllocator) (p o : ℕ) : Option BuddyAllocator :=
  if a.maxOrder < o then none else some (freeAux (a.maxOrder - o) a p o)

/-- Source: `len()` returns `num_pages`. -/
def len (a : BuddyAllocator) : ℕ := a.numPages

/-- Source: `count_free_pages`: sum over orders of `count_unset * 2^order`. -/
def countFreePages (a : BuddyAllocator) : ℕ :=
  ∑ o ∈ Finset.range (a.maxOrder + 1), (a.order o).card * 2 ^ o

/-- Source: `count_allocated_pages = len() - count_free_pages()`. -/
def countAllocatedPages (a : BuddyAllocator) : ℕ := a.len - a.countFreePages

/-- Source: `highest_free_order`: the highest order whose bitmap has an unset
bit. -/
def highestFreeOrder (a : BuddyAllocator) : Option ℕ :=
  (List.range (a.maxOrder + 1)).reverse.find? fun o => (a.order o).Nonempty

/-- Source: `find_free_order(page)`: the first order `o` (checking upward from
0, halving the page index) at which the page belongs to a free block. -/
def findFreeOrder (a : BuddyAllocator) (p : ℕ) : Option ℕ :=
  (List.range (a.maxOrder + 1)).find? fun o => p / 2 ^ o ∈ a.order o

/-- Source: the loop of `trailing_free_pages`: walk backward from the last
page accumulating the sizes of free blocks; stop at the first allocated page
or when a block reaches the start. -/
def trailingAux (a : BuddyAllocator) : ℕ → ℕ → ℕ → ℕ
  | 0, _, acc => acc
  | fuel + 1, nextPage, acc =>
    match a.findFreeOrder nextPage with
    | none => acc
    | some o =>
      if 2 ^ o > nextPage then acc + 2 ^ o
      else trailingAux a fuel (nextPage - 2 ^ o) (acc + 2 ^ o)

/-- Source: `trailing_free_pages()` starting at `self.len() - 1`. -/
def trailingFreePages (a : BuddyAllocator) : ℕ :=
  trailingAux a (a.numPages + 1) (a.numPages - 1) 0

end BuddyAllocator

/-! ### Quick sanity checks on tiny allocators (mirroring the source tests) -/

example :
    (BuddyAllocator.initNew 4 4).freeBits = [∅, ∅, {0}] := by decide

example :
    ((BuddyAllocator.initNew 4 4).alloc 0).map (fun r => (r.1, r.2.freeBits)) =
      some (0, [{1}, {1}, ∅]) := by decide

example : (BuddyAllocator.initNew 4 4).alloc 3 = none := by decide

example : (BuddyAllocator.initNew 6 8).freeBits = [∅, {2}, {0}, ∅] := by decide

/-! ## Canonical characterization of buddy-allocator states

A buddy allocator state is determined by the set `A` of allocated order-0
pages: a block is recorded free at order `o` exactly when it is entirely
available and (below the top order) its buddy is not entirely available.
This is the invariant the source asserts in `debug_check_consistency`. -/

/-- The order-0 pages of block `b` at order `o`. -/
def blk (b o : ℕ) : Finset ℕ := Finset.Ico (b * 2 ^ o) ((b + 1) * 2 ^ o)

theorem mem_blk {p b o : ℕ} : p ∈ blk b o ↔ p / 2 ^ o = b := by
  simp only [blk, Finset.mem_Ico]
  constructor
  · rintro ⟨h1, h2⟩
    exact Nat.div_eq_of_lt_le h1 h2
  · rintro rfl
    refine ⟨Nat.div_mul_le_self p _, ?_⟩
    have h1 := Nat.div_add_mod p (2 ^ o)
    have h2 := Nat.mod_lt p (Nat.two_pow_pos o)
    calc p = 2 ^ o * (p / 2 ^ o) + p % 2 ^ o := h1.symm
      _ < (p / 2 ^ o + 1) * 2 ^ o := by ring_nf; omega

theorem blk_nonempty (b o : ℕ) : (blk b o).Nonempty := by
  refine ⟨b * 2 ^ o, ?_⟩
  rw [mem_blk, Nat.mul_div_cancel _ (Nat.two_pow_pos o)]

theorem blk_disjoint {b c o : ℕ} (h : b ≠ c) : Disjoint (blk b o) (blk c o) := by
  rw [Finset.disjoint_left]
  intro p hp hq
  rw [mem_blk] at hp hq
  exact h (hp ▸ hq)

theorem div_pow_div {p o d : ℕ} : p / 2 ^ o / 2 ^ d = p / 2 ^ (o + d) := by
  rw [Nat.div_div_eq_div_mul, pow_add]

theorem div_pow_split {p o1 o2 : ℕ} (h : o1 ≤ o2) :
    p / 2 ^ o2 = p / 2 ^ o1 / 2 ^ (o2 - o1) := by
  rw [div_pow_div, Nat.add_sub_cancel' h]

theorem blk_subset {c b o1 o2 : ℕ} (h : o1 ≤ o2) (hd : c / 2 ^ (o2 - o1) = b) :
    blk c o1 ⊆ blk b o2 := by
  intro p hp
  rw [mem_blk] at hp ⊢
  rw [div_pow_split h, hp, hd]

theorem blk_disjoint_ne {c b o1 o2 : ℕ} (h : o1 ≤ o2) (hd : c / 2 ^ (o2 - o1) ≠ b) :
    Disjoint (blk c o1) (blk b o2) := by
  rw [Finset.disjoint_left]
  intro p hp hq
  rw [mem_blk] at hp hq
  apply hd
  rw [div_pow_split h, hp] at hq
  exact hq

/-- The buddy `b ^ 1` of the source, written out arithmetically. -/
theorem xor_one_cases (b : ℕ) : b ^^^ 1 = if b % 2 = 0 then b + 1 else b - 1 := by
  have hm : (b ^^^ 1) % 2 = (b + 1) % 2 := Nat.xor_mod_two_eq
  have hd : (b ^^^ 1) / 2 = b / 2 := by
    have h : (b ^^^ 1) >>> 1 = b >>> 1 := by
      apply Nat.eq_of_testBit_eq
      intro i
      have h1 : Nat.testBit 1 (1 + i) = false :=
        Nat.testBit_lt_two_pow (Nat.one_lt_two_pow (by omega))
      simp [Nat.testBit_shiftRight, Nat.testBit_xor, h1]
    simpa [Nat.shiftRight_eq_div_pow] using h
  have h1 := Nat.div_add_mod (b ^^^ 1) 2
  have h2 := Nat.div_add_mod b 2
  by_cases hb : b % 2 = 0
  · rw [if_pos hb]
    omega
  · rw [if_neg hb]
    omega

theorem xor_one_ne (b : ℕ) : b ^^^ 1 ≠ b := by
  rw [xor_one_cases]
  by_cases hb : b % 2 = 0
  · rw [if_pos hb]; omega
  · rw [if_neg hb]; omega

theorem xor_one_div_two (b : ℕ) : (b ^^^ 1) / 2 = b / 2 := by
  rw [xor_one_cases]
  by_cases hb : b % 2 = 0
  · rw [if_pos hb]; omega
  · rw [if_neg hb]; omega

theorem xor_one_xor_one (b : ℕ) : b ^^^ 1 ^^^ 1 = b := by
  rw [Nat.xor_assoc, Nat.xor_self, Nat.xor_zero]

theorem xor_one_div_pow {d : ℕ} (hd : 1 ≤ d) (b : ℕ) : (b ^^^ 1) / 2 ^ d = b / 2 ^ d := by
  obtain ⟨e, rfl⟩ : ∃ e, d = 1 + e := ⟨d - 1, by omega⟩
  rw [← div_pow_div (o := 1), ← div_pow_div (o := 1), pow_one, xor_one_div_two]

theorem div_pow_succ (p o : ℕ) : p / 2 ^ o / 2 = p / 2 ^ (o + 1) := by
  rw [Nat.div_div_eq_div_mul, pow_succ]

/-- The two buddies partition their parent block. -/
theorem blk_pair (b o : ℕ) : blk b o ∪ blk (b ^^^ 1) o = blk (b / 2) (o + 1) := by
  have hsub1 : blk b o ⊆ blk (b / 2) (o + 1) := by
    apply blk_subset (by omega)
    have h1 : o + 1 - o = 1 := by omega
    rw [h1, pow_one]
  have hsub2 : blk (b ^^^ 1) o ⊆ blk (b / 2) (o + 1) := by
    apply blk_subset (by omega)
    have h1 : o + 1 - o = 1 := by omega
    rw [h1, pow_one, xor_one_div_two]
  apply Finset.Subset.antisymm (Finset.union_subset hsub1 hsub2)
  intro p hp
  rw [mem_blk] at hp
  rw [Finset.mem_union, mem_blk, mem_blk]
  have h1 : p / 2 ^ o / 2 = b / 2 := by rw [div_pow_succ, hp]
  have hx := xor_one_cases b
  by_cases hb : b % 2 = 0
  · rw [if_pos hb] at hx
    omega
  · rw [if_neg hb] at hx
    omega

/-- Every order-0 page of block `(b, o)` is available: in range and not
allocated. This is what a clear order-`o` bit means in a consistent state. -/
def BlockFree (N : ℕ) (A : Finset ℕ) (b o : ℕ) : Prop :=
  ∀ p ∈ blk b o, p < N ∧ p ∉ A

instance (N : ℕ) (A : Finset ℕ) (b o : ℕ) : Decidable (BlockFree N A b o) :=
  Finset.decidableDforallFinset

theorem BlockFree.bound {N A b o} (h : BlockFree N A b o) : (b + 1) * 2 ^ o ≤ N := by
  have h2 := Nat.two_pow_pos o
  have hp : (b + 1) * 2 ^ o - 1 ∈ blk b o := by
    simp only [blk, Finset.mem_Ico]
    have he : b * 2 ^ o + 2 ^ o = (b + 1) * 2 ^ o := by ring
    omega
  have := (h _ hp).1
  omega

theorem blockFree_sdiff_disjoint {N A b o c o2} (h : Disjoint (blk c o2) (blk b o)) :
    BlockFree N (A \ blk b o) c o2 ↔ BlockFree N A c o2 := by
  unfold BlockFree
  refine forall₂_congr fun p hp => ?_
  have hpb : p ∉ blk b o := Finset.disjoint_left.mp h hp
  simp [Finset.mem_sdiff, hpb]

theorem blockFree_sdiff_self {N A b o} (hN : (b + 1) * 2 ^ o ≤ N) :
    BlockFree N (A \ blk b o) b o := by
  intro p hp
  have hlt : p < N := by
    have := (Finset.mem_Ico.mp hp).2
    omega
  exact ⟨hlt, by simp [Finset.mem_sdiff, hp]⟩

theorem not_blockFree_of_alloc {N A b o c o2} (hsub : blk b o ⊆ A)
    (hss : blk b o ⊆ blk c o2) : ¬ BlockFree N A c o2 := by
  intro h
  obtain ⟨p, hp⟩ := blk_nonempty b o
  exact (h p (hss hp)).2 (hsub hp)

/-- The canonical set of free bits at one order, for allocated set `A`. -/
def canonFree (M N : ℕ) (A : Finset ℕ) (o : ℕ) : Finset ℕ :=
  (Finset.range N).filter fun b =>
    BlockFree N A b o ∧ (o = M ∨ ¬ BlockFree N A (b ^^^ 1) o)

theorem mem_canonFree {M N A o c} :
    c ∈ canonFree M N A o ↔
      BlockFree N A c o ∧ (o = M ∨ ¬ BlockFree N A (c ^^^ 1) o) := by
  simp only [canonFree, Finset.mem_filter, Finset.mem_range, and_iff_right_iff_imp]
  rintro ⟨hf, _⟩
  have hb := hf.bound
  have h2 := Nat.two_pow_pos o
  have : c + 1 ≤ (c + 1) * 2 ^ o := Nat.le_mul_of_pos_right _ h2
  omega

theorem blockFree_subset_sdiff {N : ℕ} {A : Finset ℕ} {b o c o2 : ℕ}
    (hss : blk c o2 ⊆ blk b o) (hN : (b + 1) * 2 ^ o ≤ N) :
    BlockFree N (A \ blk b o) c o2 := by
  intro p hp
  have hpB : p ∈ blk b o := hss hp
  have hlt : p < N := by
    have := (Finset.mem_Ico.mp hpB).2
    omega
  exact ⟨hlt, by simp [Finset.mem_sdiff, hpB]⟩

theorem not_blockFree_sdiff_transfer {N : ℕ} {A : Finset ℕ} {b o d o2 : ℕ}
    (hw : ¬ BlockFree N A (b ^^^ 1) o) (hss : blk (b ^^^ 1) o ⊆ blk d o2) :
    ¬ BlockFree N (A \ blk b o) d o2 := by
  intro hf
  apply hw
  intro p hp
  have hpd := hss hp
  have hpB : p ∉ blk b o := Finset.disjoint_left.mp (blk_disjoint (xor_one_ne b)) hp
  have hx := hf p hpd
  rw [Finset.mem_sdiff] at hx
  exact ⟨hx.1, fun hA => hx.2 ⟨hA, hpB⟩⟩

/-- Core update lemma: freeing a fully-allocated, in-range block `(b, o)`
whose buddy is not entirely available (or `o` is the top order) inserts `b`
into the canonical free set at order `o` and changes no other order. -/
theorem canonFree_sdiff {M N : ℕ} {A : Finset ℕ} {b o : ℕ}
    (hsub : blk b o ⊆ A) (hN : (b + 1) * 2 ^ o ≤ N)
    (hbuddy : o = M ∨ ¬ BlockFree N A (b ^^^ 1) o) (hoM : o ≤ M)
    {o2 : ℕ} (ho2 : o2 ≤ M) :
    canonFree M N (A \ blk b o) o2 =
      if o2 = o then insert b (canonFree M N A o) else canonFree M N A o2 := by
  ext c
  by_cases he : o2 = o
  · rw [if_pos he, he]
    rw [Finset.mem_insert, mem_canonFree, mem_canonFree]
    by_cases hcb : c = b
    · rw [hcb]
      constructor
      · intro _
        exact Or.inl rfl
      · intro _
        refine ⟨blockFree_subset_sdiff le_rfl.subset hN, ?_⟩
        rcases hbuddy with h | h
        · exact Or.inl h
        · exact Or.inr fun hf =>
            h ((blockFree_sdiff_disjoint (blk_disjoint (xor_one_ne b))).mp hf)
    · have hbf : BlockFree N (A \ blk b o) c o ↔ BlockFree N A c o :=
        blockFree_sdiff_disjoint (blk_disjoint hcb)
      by_cases hc1 : c ^^^ 1 = b
      · rcases eq_or_ne o M with hM | hM
        · constructor
          · rintro ⟨hf, _⟩
            exact Or.inr ⟨hbf.mp hf, Or.inl hM⟩
          · rintro (hcb2 | ⟨hf, _⟩)
            · exact absurd hcb2 hcb
            · exact ⟨hbf.mpr hf, Or.inl hM⟩
        · have hbc : b ^^^ 1 = c := by rw [← hc1, xor_one_xor_one]
          have hnc : ¬ BlockFree N A c o := by
            rcases hbuddy with h | h
            · exact absurd h hM
            · rw [hbc] at h
              exact h
          constructor
          · rintro ⟨hf, _⟩
            exact absurd (hbf.mp hf) hnc
          · rintro (hcb2 | ⟨hf, _⟩)
            · exact absurd hcb2 hcb
            · exact absurd hf hnc
      · have hbf2 : BlockFree N (A \ blk b o) (c ^^^ 1) o ↔ BlockFree N A (c ^^^ 1) o :=
          blockFree_sdiff_disjoint (blk_disjoint hc1)
        rw [hbf, hbf2]
        simp [hcb]
  · rw [if_neg he]
    rw [mem_canonFree, mem_canonFree]
    rcases Nat.lt_or_ge o2 o with hlt | hge
    · -- lower order: the freed block strictly contains or is disjoint from c
      have hd1 : 1 ≤ o - o2 := by omega
      have hdx : (c ^^^ 1) / 2 ^ (o - o2) = c / 2 ^ (o - o2) := xor_one_div_pow hd1 c
      have ho2M : o2 ≠ M := by omega
      by_cases hcd : c / 2 ^ (o - o2) = b
      · -- c and its buddy both lie inside the freed block
        have hss : blk c o2 ⊆ blk b o := blk_subset (by omega) hcd
        have hss2 : blk (c ^^^ 1) o2 ⊆ blk b o := blk_subset (by omega) (hdx.trans hcd)
        have hl1 : BlockFree N (A \ blk b o) c o2 := blockFree_subset_sdiff hss hN
        have hl2 : BlockFree N (A \ blk b o) (c ^^^ 1) o2 := blockFree_subset_sdiff hss2 hN
        have hr1 : ¬ BlockFree N A c o2 :=
          not_blockFree_of_alloc (hss.trans hsub) le_rfl.subset
        simp [hl1, hl2, hr1, ho2M]
      · have hdis1 : Disjoint (blk c o2) (blk b o) := blk_disjoint_ne (by omega) hcd
        have hdis2 : Disjoint (blk (c ^^^ 1) o2) (blk b o) :=
          blk_disjoint_ne (by omega) (hdx ▸ hcd)
        rw [blockFree_sdiff_disjoint hdis1, blockFree_sdiff_disjoint hdis2]
    · -- higher order: the freed block lies inside c, its buddy, or neither
      have hgt : o < o2 := by omega
      have hd1 : 1 ≤ o2 - o := by omega
      have hoM2 : o ≠ M := by omega
      have hbud : ¬ BlockFree N A (b ^^^ 1) o := by
        rcases hbuddy with h | h
        · exact absurd h hoM2
        · exact h
      have hdx : (b ^^^ 1) / 2 ^ (o2 - o) = b / 2 ^ (o2 - o) := xor_one_div_pow hd1 b
      by_cases hcd : b / 2 ^ (o2 - o) = c
      · -- the freed block (and its buddy) lie inside block c
        have hss : blk b o ⊆ blk c o2 := blk_subset (by omega) hcd
        have hss2 : blk (b ^^^ 1) o ⊆ blk c o2 := blk_subset (by omega) (hdx.trans hcd)
        have hl : ¬ BlockFree N (A \ blk b o) c o2 := not_blockFree_sdiff_transfer hbud hss2
        have hr : ¬ BlockFree N A c o2 := not_blockFree_of_alloc hsub hss
        simp [hl, hr]
      · by_cases hcd2 : b / 2 ^ (o2 - o) = c ^^^ 1
        · -- the freed block lies inside the buddy of block c
          have hss : blk b o ⊆ blk (c ^^^ 1) o2 := blk_subset (by omega) hcd2
          have hss2 : blk (b ^^^ 1) o ⊆ blk (c ^^^ 1) o2 := blk_subset (by omega) (hdx.trans hcd2)
          have hxc : b / 2 ^ (o2 - o) ≠ c := by
            rw [hcd2]
            exact xor_one_ne c
          have hbfc : BlockFree N (A \ blk b o) c o2 ↔ BlockFree N A c o2 :=
            blockFree_sdiff_disjoint (blk_disjoint_ne (le_of_lt hgt) hxc).symm
          have hl2 : ¬ BlockFree N (A \ blk b o) (c ^^^ 1) o2 :=
            not_blockFree_sdiff_transfer hbud hss2
          have hr2 : ¬ BlockFree N A (c ^^^ 1) o2 := not_blockFree_of_alloc hsub hss
          rw [hbfc]
          simp [hl2, hr2]
        · -- disjoint from both c and its buddy
          have hdis1 : Disjoint (blk c o2) (blk b o) :=
            (blk_disjoint_ne (le_of_lt hgt) hcd).symm
          have hdis2 : Disjoint (blk (c ^^^ 1) o2) (blk b o) :=
            (blk_disjoint_ne (le_of_lt hgt) hcd2).symm
          rw [blockFree_sdiff_disjoint hdis1, blockFree_sdiff_disjoint hdis2]

theorem blockFree_mono {N : ℕ} {A A2 : Finset ℕ} {c o : ℕ} (h : A ⊆ A2) :
    BlockFree N A2 c o → BlockFree N A c o := fun hf p hp =>
  ⟨(hf p hp).1, fun hA => (hf p hp).2 (h hA)⟩

theorem blockFree_of_subset {N : ℕ} {A : Finset ℕ} {b o c o2 : ℕ}
    (hss : blk c o2 ⊆ blk b o) (hf : BlockFree N A b o) : BlockFree N A c o2 :=
  fun p hp => hf p (hss hp)

/-- Converse update lemma: allocating a canonical free block `(b, o)` erases
`b` from the canonical set at order `o` and changes no other order. -/
theorem canonFree_union {M N : ℕ} {A : Finset ℕ} {b o : ℕ}
    (hmem : b ∈ canonFree M N A o) (hoM : o ≤ M) {o2 : ℕ} (ho2 : o2 ≤ M) :
    canonFree M N (A ∪ blk b o) o2 =
      if o2 = o then (canonFree M N A o).erase b else canonFree M N A o2 := by
  rw [mem_canonFree] at hmem
  obtain ⟨hbf, hcond⟩ := hmem
  have hN : (b + 1) * 2 ^ o ≤ N := hbf.bound
  have hresA : (A ∪ blk b o) \ blk b o = A := by
    ext p
    simp only [Finset.mem_sdiff, Finset.mem_union]
    constructor
    · rintro ⟨hp | hp, hnp⟩
      · exact hp
      · exact absurd hp hnp
    · intro hp
      exact ⟨Or.inl hp, fun hq => (hbf p hq).2 hp⟩
  have hbuddy : o = M ∨ ¬ BlockFree N (A ∪ blk b o) (b ^^^ 1) o := by
    rcases hcond with h | h
    · exact Or.inl h
    · exact Or.inr fun hf => h (blockFree_mono Finset.subset_union_left hf)
  by_cases he : o2 = o
  · rw [if_pos he, he]
    have h1 := canonFree_sdiff (A := A ∪ blk b o) Finset.subset_union_right hN hbuddy hoM hoM
    rw [if_pos rfl, hresA] at h1
    have hnb : b ∉ canonFree M N (A ∪ blk b o) o := by
      rw [mem_canonFree]
      rintro ⟨hf, _⟩
      obtain ⟨p, hp⟩ := blk_nonempty b o
      exact (hf p hp).2 (Finset.mem_union_right _ hp)
    rw [h1, Finset.erase_insert hnb]
  · rw [if_neg he]
    have h1 := canonFree_sdiff (A := A ∪ blk b o) Finset.subset_union_right hN hbuddy hoM ho2
    rw [if_neg he, hresA] at h1
    exact h1.symm

/-! ## Operational lemmas about the allocator state -/

namespace BuddyAllocator

theorem order_set_self {a : BuddyAllocator} {o : ℕ} {s : Finset ℕ}
    (h : o < a.freeBits.length) :
    ({ a with freeBits := a.freeBits.set o s } : BuddyAllocator).order o = s := by
  simp [order, List.getD, List.getElem?_set_self h]

theorem order_set_ne {a : BuddyAllocator} {o o2 : ℕ} {s : Finset ℕ} (h : o2 ≠ o) :
    ({ a with freeBits := a.freeBits.set o s } : BuddyAllocator).order o2 = a.order o2 := by
  simp [order, List.getD, List.getElem?_set_ne (Ne.symm h)]

/-- Refinement invariant: the allocator is in the canonical state for the
set `A` of allocated order-0 pages. -/
def Inv (a : BuddyAllocator) (A : Finset ℕ) : Prop :=
  a.freeBits.length = a.maxOrder + 1 ∧
  A ⊆ Finset.range a.numPages ∧
  ∀ o ≤ a.maxOrder, a.order o = canonFree a.maxOrder a.numPages A o

theorem Inv_update {a : BuddyAllocator} {A2 : Finset ℕ} {o : ℕ} {s : Finset ℕ}
    (hlen : a.freeBits.length = a.maxOrder + 1) (holt : o < a.freeBits.length)
    (hA2 : A2 ⊆ Finset.range a.numPages)
    (hcan : ∀ o2, o2 ≤ a.maxOrder →
      (if o2 = o then s else a.order o2) = canonFree a.maxOrder a.numPages A2 o2) :
    Inv ({ a with freeBits := a.freeBits.set o s } : BuddyAllocator) A2 := by
  refine ⟨by simpa using hlen, hA2, ?_⟩
  intro o2 ho2
  have ho2b : o2 ≤ a.maxOrder := ho2
  by_cases he : o2 = o
  · subst he
    rw [order_set_self holt]
    have h := hcan o2 ho2b
    rwa [if_pos rfl] at h
  · rw [order_set_ne he]
    have h := hcan o2 ho2b
    rwa [if_neg he] at h

theorem bmAllocBit_none {s : Finset ℕ} : bmAllocBit s = none ↔ s = ∅ := by
  unfold bmAllocBit bmFindFirstUnset
  by_cases h : s.Nonempty
  · simp only [dif_pos h]
    constructor
    · intro hx
      exact absurd hx (by simp)
    · intro hx
      exact absurd (hx ▸ h) (by simp)
  · simp only [dif_neg h]
    simp only [Finset.not_nonempty_iff_eq_empty] at h
    simp [h]

theorem bmAllocBit_some {s : Finset ℕ} {x : ℕ} {s2 : Finset ℕ}
    (h : bmAllocBit s = some (x, s2)) : x ∈ s ∧ s2 = s.erase x := by
  unfold bmAllocBit bmFindFirstUnset at h
  by_cases hn : s.Nonempty
  · rw [dif_pos hn] at h
    simp only [Option.some.injEq, Prod.mk.injEq] at h
    obtain ⟨h1, h2⟩ := h
    refine ⟨h1 ▸ s.min'_mem hn, ?_⟩
    rw [← h2, h1]
  · rw [dif_neg hn] at h
    exact absurd h (by simp)

/-- Source behaviour: `alloc(order)` returns `None` exactly when no bitmap at
any order `≥ order` has a clear bit. -/
theorem allocAux_none_iff (a : BuddyAllocator) :
    ∀ fuel o, fuel = a.maxOrder + 1 - o →
      (allocAux a fuel o = none ↔ ∀ o2, o ≤ o2 → o2 ≤ a.maxOrder → a.order o2 = ∅) := by
  intro fuel
  induction fuel with
  | zero =>
    intro o hf
    simp only [allocAux, true_iff]
    intro o2 h1 h2
    omega
  | succ fuel ih =>
    intro o hf
    rw [allocAux]
    cases hbm : bmAllocBit (a.order o) with
    | some r =>
      simp only [reduceCtorEq, false_iff, not_forall]
      obtain ⟨x, s2⟩ := r
      obtain ⟨hx, _⟩ := bmAllocBit_some hbm
      refine ⟨o, le_rfl, by omega, fun hemp => ?_⟩
      rw [hemp] at hx
      exact absurd hx (by simp)
    | none =>
      have h0 : a.order o = ∅ := bmAllocBit_none.mp hbm
      cases hrec : allocAux a fuel (o + 1) with
      | some ua =>
        simp only [reduceCtorEq, false_iff, not_forall]
        have := (ih (o + 1) (by omega)).not.mp (by rw [hrec]; simp)
        push_neg at this
        obtain ⟨o2, h1, h2, h3⟩ := this
        exact ⟨o2, by omega, h2, h3⟩
      | none =>
        simp only [true_iff]
        intro o2 h1 h2
        rcases eq_or_lt_of_le h1 with rfl | hlt
        · exact h0
        · exact ((ih (o + 1) (by omega)).mp hrec) o2 hlt h2

/-- Preservation: a successful `alloc(order)` on a canonical state returns a
page whose order-`order` block was entirely available, came from a recorded
free block at some order `≥ order`, and leaves the canonical state for the
enlarged allocated set. -/
theorem allocAux_spec {A : Finset ℕ} :
    ∀ fuel (a : BuddyAllocator) (o : ℕ), fuel = a.maxOrder + 1 - o →
      Inv a A →
      ∀ p a2, allocAux a fuel o = some (p, a2) →
        a2.maxOrder = a.maxOrder ∧ a2.numPages = a.numPages ∧
        Inv a2 (A ∪ blk p o) ∧ BlockFree a.numPages A p o ∧
        ∃ o3, o ≤ o3 ∧ o3 ≤ a.maxOrder ∧ p / 2 ^ (o3 - o) ∈ a.order o3 := by
  intro fuel
  induction fuel with
  | zero =>
    intro a o hf hInv p a2 hres
    exact absurd hres (by simp [allocAux])
  | succ fuel ih =>
    intro a o hf hInv p a2 hres
    have hoM : o ≤ a.maxOrder := by omega
    have hlen : a.freeBits.length = a.maxOrder + 1 := hInv.1
    have holt : o < a.freeBits.length := by omega
    obtain ⟨_, hAsub, hcanon⟩ := hInv
    rw [allocAux] at hres
    cases hbm : bmAllocBit (a.order o) with
    | some r =>
      obtain ⟨x, s2⟩ := r
      rw [hbm] at hres
      simp only [Option.some.injEq, Prod.mk.injEq] at hres
      obtain ⟨rfl, rfl⟩ := hres
      obtain ⟨hx, hs⟩ := bmAllocBit_some hbm
      subst hs
      have hmem : x ∈ canonFree a.maxOrder a.numPages A o := by
        rw [← hcanon o hoM]
        exact hx
      have hbfx : BlockFree a.numPages A x o := (mem_canonFree.mp hmem).1
      refine ⟨rfl, rfl, ⟨by simpa using hlen, ?_, ?_⟩, hbfx,
        ⟨o, le_rfl, hoM, by simpa using hx⟩⟩
      · apply Finset.union_subset hAsub
        intro q hq
        rw [Finset.mem_range]
        exact (hbfx q hq).1
      · intro o2 ho2
        have ho2b : o2 ≤ a.maxOrder := ho2
        show ({ a with freeBits := a.freeBits.set o ((a.order o).erase x) } :
            BuddyAllocator).order o2 = _
        rw [canonFree_union hmem hoM ho2b]
        by_cases he : o2 = o
        · rw [he, if_pos rfl, order_set_self holt, hcanon o hoM]
        · rw [if_neg he, order_set_ne he, hcanon o2 ho2b]
    | none =>
      rw [hbm] at hres
      cases hrec : allocAux a fuel (o + 1) with
      | none =>
        rw [hrec] at hres
        exact absurd hres (by simp)
      | some ua =>
        obtain ⟨u, a1⟩ := ua
        rw [hrec] at hres
        simp only [Option.some.injEq, Prod.mk.injEq] at hres
        obtain ⟨rfl, rfl⟩ := hres
        obtain ⟨hM1, hN1, hInv1, hbfu, o3, ho3a, ho3b, hwit⟩ :=
          ih a (o + 1) (by omega) ⟨hlen, hAsub, hcanon⟩ u a1 hrec
        have hbound : (u + 1) * 2 ^ (o + 1) ≤ a.numPages := hbfu.bound
        have hu2 : (u * 2) ^^^ 1 = u * 2 + 1 := by
          rw [xor_one_cases, if_pos (by omega)]
        have hu21 : (u * 2 + 1) ^^^ 1 = u * 2 := by
          rw [xor_one_cases, if_neg (by omega)]
          omega
        have hpair : blk (u * 2) o ∪ blk (u * 2 + 1) o = blk u (o + 1) := by
          have h := blk_pair (u * 2) o
          rw [hu2, Nat.mul_div_cancel u (by omega)] at h
          exact h
        have hss0 : blk (u * 2) o ⊆ blk u (o + 1) :=
          hpair ▸ Finset.subset_union_left
        have hss1 : blk (u * 2 + 1) o ⊆ blk u (o + 1) :=
          hpair ▸ Finset.subset_union_right
        have hdisjA : ∀ q ∈ blk u (o + 1), q ∉ A := fun q hq => (hbfu q hq).2
        have hchild : Disjoint (blk (u * 2) o) (blk (u * 2 + 1) o) :=
          blk_disjoint (by omega)
        have hsplitA : A ∪ blk (u * 2) o = (A ∪ blk u (o + 1)) \ blk (u * 2 + 1) o := by
          ext q
          simp only [Finset.mem_union, Finset.mem_sdiff]
          constructor
          · rintro (hq | hq)
            · exact ⟨Or.inl hq, fun hc => hdisjA q (hss1 hc) hq⟩
            · exact ⟨Or.inr (hss0 hq), fun hc => Finset.disjoint_left.mp hchild hq hc⟩
          · rintro ⟨hq | hq, hnc⟩
            · exact Or.inl hq
            · rw [← hpair] at hq
              rcases Finset.mem_union.mp hq with h | h
              · exact Or.inr h
              · exact absurd h hnc
        have hN2 : (u * 2 + 1 + 1) * 2 ^ o ≤ a.numPages := by
          have he : (u + 1) * 2 ^ (o + 1) = (u * 2 + 1 + 1) * 2 ^ o := by ring
          omega
        have hsubA1 : blk (u * 2 + 1) o ⊆ A ∪ blk u (o + 1) :=
          hss1.trans Finset.subset_union_right
        have hbuddy2 : o = a.maxOrder ∨
            ¬ BlockFree a.numPages (A ∪ blk u (o + 1)) ((u * 2 + 1) ^^^ 1) o := by
          refine Or.inr ?_
          rw [hu21]
          exact not_blockFree_of_alloc (hss0.trans Finset.subset_union_right) le_rfl.subset
        have hkey := fun (o2 : ℕ) (ho2 : o2 ≤ a.maxOrder) =>
          canonFree_sdiff (M := a.maxOrder) (A := A ∪ blk u (o + 1))
            hsubA1 hN2 hbuddy2 hoM ho2
        have hInv1len : a1.freeBits.length = a.maxOrder + 1 := by
          rw [hInv1.1, hM1]
        have holt1 : o < a1.freeBits.length := by omega
        have hA2A1 : A ∪ blk (u * 2) o ⊆ A ∪ blk u (o + 1) :=
          Finset.union_subset Finset.subset_union_left
            (hss0.trans Finset.subset_union_right)
        have hcanon1 : ∀ o4, o4 ≤ a.maxOrder →
            a1.order o4 = canonFree a.maxOrder a.numPages (A ∪ blk u (o + 1)) o4 := by
          intro o4 ho4
          have h := hInv1.2.2 o4 (by omega)
          rw [hM1, hN1] at h
          exact h
        refine ⟨hM1, hN1, ⟨?_, ?_, ?_⟩,
          blockFree_of_subset hss0 hbfu, ⟨o3, by omega, ho3b, ?_⟩⟩
        · simpa using hInv1.1
        · show A ∪ blk (u * 2) o ⊆ Finset.range a1.numPages
          rw [hN1]
          intro q hq
          have h := hInv1.2.1 (hA2A1 hq)
          rw [hN1] at h
          exact h
        · intro o2 ho2
          have ho2b : o2 ≤ a.maxOrder := by
            have h : o2 ≤ a1.maxOrder := ho2
            omega
          have hcan2 : canonFree a.maxOrder a.numPages (A ∪ blk (u * 2) o) o2 =
              if o2 = o then insert (u * 2 + 1)
                (canonFree a.maxOrder a.numPages (A ∪ blk u (o + 1)) o)
              else canonFree a.maxOrder a.numPages (A ∪ blk u (o + 1)) o2 := by
            rw [hsplitA]
            exact hkey o2 ho2b
          show ({ a1 with freeBits := a1.freeBits.set o (insert (u * 2 + 1) (a1.order o)) } :
              BuddyAllocator).order o2 =
            canonFree a1.maxOrder a1.numPages (A ∪ blk (u * 2) o) o2
          by_cases he : o2 = o
          · subst he
            rw [order_set_self holt1, hcanon1 o2 hoM, hM1, hN1, hcan2, if_pos rfl]
          · rw [order_set_ne he, hcanon1 o2 ho2b, hM1, hN1, hcan2, if_neg he]
        · have harith : u * 2 / 2 ^ (o3 - o) = u / 2 ^ (o3 - (o + 1)) := by
            have h1 : o3 - o = (o3 - (o + 1)) + 1 := by omega
            rw [h1, pow_succ, Nat.mul_comm (2 ^ (o3 - (o + 1))) 2,
              ← Nat.div_div_eq_div_mul, Nat.mul_div_cancel u (by omega)]
          rw [harith]
          exact hwit

theorem blk_subset_range {p o N : ℕ} (h : blk p o ⊆ Finset.range N) :
    (p + 1) * 2 ^ o ≤ N := by
  have h2 := Nat.two_pow_pos o
  have hp : (p + 1) * 2 ^ o - 1 ∈ blk p o := by
    simp only [blk, Finset.mem_Ico]
    have he : p * 2 ^ o + 2 ^ o = (p + 1) * 2 ^ o := by ring
    omega
  have := Finset.mem_range.mp (h hp)
  omega

/-- Preservation: freeing a fully-allocated block of a canonical state yields
the canonical state with the block removed from the allocated set. -/
theorem freeAux_spec :
    ∀ fuel (a : BuddyAllocator) (A : Finset ℕ) (p o : ℕ),
      fuel = a.maxOrder - o → o ≤ a.maxOrder →
      Inv a A → blk p o ⊆ A → (p + 1) * 2 ^ o ≤ a.numPages →
      (freeAux fuel a p o).maxOrder = a.maxOrder ∧
      (freeAux fuel a p o).numPages = a.numPages ∧
      Inv (freeAux fuel a p o) (A \ blk p o) := by
  intro fuel
  induction fuel with
  | zero =>
    intro a A p o hf hoM hInv hsub hN
    have hoM2 : o = a.maxOrder := by omega
    obtain ⟨hlen, hAsub, hcanon⟩ := hInv
    have holt : o < a.freeBits.length := by omega
    simp only [freeAux]
    refine ⟨trivial, trivial, ?_⟩
    apply Inv_update hlen holt ((Finset.sdiff_subset).trans hAsub)
    intro o2 ho2b
    rw [canonFree_sdiff hsub hN (Or.inl hoM2) hoM ho2b]
    by_cases he : o2 = o
    · subst he
      rw [if_pos rfl, if_pos rfl, hcanon o2 hoM]
    · rw [if_neg he, if_neg he, hcanon o2 ho2b]
  | succ fuel ih =>
    intro a A p o hf hoM hInv hsub hN
    have hoM2 : o < a.maxOrder := by omega
    obtain ⟨hlen, hAsub, hcanon⟩ := hInv
    have holt : o < a.freeBits.length := by omega
    have hnbfp : ¬ BlockFree a.numPages A p o :=
      not_blockFree_of_alloc hsub le_rfl.subset
    simp only [freeAux]
    by_cases hb : (p ^^^ 1) ∉ a.order o
    · rw [if_pos hb]
      have hnbf : ¬ BlockFree a.numPages A (p ^^^ 1) o := by
        intro hbf
        apply hb
        rw [hcanon o (by omega), mem_canonFree]
        refine ⟨hbf, Or.inr ?_⟩
        rw [xor_one_xor_one]
        exact hnbfp
      refine ⟨rfl, rfl, ?_⟩
      apply Inv_update hlen holt ((Finset.sdiff_subset).trans hAsub)
      intro o2 ho2b
      rw [canonFree_sdiff hsub hN (Or.inr hnbf) (by omega) ho2b]
      by_cases he : o2 = o
      · subst he
        rw [if_pos rfl, if_pos rfl, hcanon o2 (by omega)]
      · rw [if_neg he, if_neg he, hcanon o2 ho2b]
    · rw [if_neg hb]
      rw [not_not] at hb
      have hmem : (p ^^^ 1) ∈ canonFree a.maxOrder a.numPages A o := by
        rw [← hcanon o (by omega)]
        exact hb
      have hbfb : BlockFree a.numPages A (p ^^^ 1) o := (mem_canonFree.mp hmem).1
      have hpair : blk p o ∪ blk (p ^^^ 1) o = blk (p / 2) (o + 1) := blk_pair p o
      have hAdisjb : ∀ q ∈ blk (p ^^^ 1) o, q ∉ A := fun q hq => (hbfb q hq).2
      -- the intermediate state is canonical for the enlarged allocated set
      have hInvMid : Inv ({ a with freeBits := a.freeBits.set o ((a.order o).erase (p ^^^ 1)) } : BuddyAllocator) (A ∪ blk (p ^^^ 1) o) := by
        apply Inv_update hlen holt
        · apply Finset.union_subset hAsub
          intro q hq
          rw [Finset.mem_range]
          exact (hbfb q hq).1
        · intro o2 ho2b
          rw [canonFree_union hmem (by omega) ho2b]
          by_cases he : o2 = o
          · subst he
            rw [if_pos rfl, if_pos rfl, hcanon o2 (by omega)]
          · rw [if_neg he, if_neg he, hcanon o2 ho2b]
      have hsub2 : blk (p / 2) (o + 1) ⊆ A ∪ blk (p ^^^ 1) o := by
        rw [← hpair]
        apply Finset.union_subset
        · exact hsub.trans Finset.subset_union_left
        · exact Finset.subset_union_right
      have hbN : ((p ^^^ 1) + 1) * 2 ^ o ≤ a.numPages := hbfb.bound
      have hN2 : (p / 2 + 1) * 2 ^ (o + 1) ≤ a.numPages := by
        have hx := xor_one_cases p
        have hpe : (p / 2 + 1) * 2 ^ (o + 1) = (2 * (p / 2) + 2) * 2 ^ o := by
          rw [pow_succ]
          ring
        by_cases hp2 : p % 2 = 0
        · rw [if_pos hp2] at hx
          have h9 : 2 * (p / 2) + 2 = (p ^^^ 1) + 1 := by omega
          rw [hpe, h9]
          exact hbN
        · rw [if_neg hp2] at hx
          have h9 : 2 * (p / 2) + 2 = p + 1 := by omega
          rw [hpe, h9]
          exact hN
      have hseteq : (A ∪ blk (p ^^^ 1) o) \ blk (p / 2) (o + 1) = A \ blk p o := by
        ext q
        simp only [Finset.mem_sdiff, Finset.mem_union, ← hpair]
        constructor
        · rintro ⟨hq | hq, hnq⟩
          · exact ⟨hq, fun hc => hnq (Or.inl hc)⟩
          · exact absurd (Or.inr hq) hnq
        · rintro ⟨hq, hnq⟩
          refine ⟨Or.inl hq, ?_⟩
          rintro (hc | hc)
          · exact hnq hc
          · exact hAdisjb q hc hq
      have hres := ih { a with freeBits := a.freeBits.set o ((a.order o).erase (p ^^^ 1)) } (A ∪ blk (p ^^^ 1) o) (p / 2) (o + 1) (by simpa using by omega) (by simpa using hoM2) hInvMid hsub2 (by simpa using hN2)
      rw [hseteq] at hres
      exact hres

/-- Preservation: `record_alloc` on a block that is entirely available
succeeds and yields the canonical state for the enlarged allocated set. -/
theorem recordAllocAux_spec :
    ∀ fuel (a : BuddyAllocator) (A : Finset ℕ) (p o : ℕ),
      fuel = a.maxOrder + 1 - o → o ≤ a.maxOrder →
      Inv a A → BlockFree a.numPages A p o →
      ∃ a2, recordAllocAux fuel a p o = some a2 ∧
        a2.maxOrder = a.maxOrder ∧ a2.numPages = a.numPages ∧
        Inv a2 (A ∪ blk p o) := by
  intro fuel
  induction fuel with
  | zero =>
    intro a A p o hf hoM hInv hbf
    omega
  | succ fuel ih =>
    intro a A p o hf hoM hInv hbf
    obtain ⟨hlen, hAsub, hcanon⟩ := hInv
    have holt : o < a.freeBits.length := by omega
    rw [recordAllocAux]
    by_cases hp : p ∈ a.order o
    · rw [if_pos hp]
      refine ⟨_, rfl, rfl, rfl, ?_⟩
      have hmem : p ∈ canonFree a.maxOrder a.numPages A o := by
        rw [← hcanon o hoM]
        exact hp
      apply Inv_update hlen holt
      · apply Finset.union_subset hAsub
        intro q hq
        rw [Finset.mem_range]
        exact (hbf q hq).1
      · intro o2 ho2b
        rw [canonFree_union hmem hoM ho2b]
        by_cases he : o2 = o
        · subst he
          rw [if_pos rfl, if_pos rfl, hcanon o2 hoM]
        · rw [if_neg he, if_neg he, hcanon o2 ho2b]
    · rw [if_neg hp]
      have hnotmem : p ∉ canonFree a.maxOrder a.numPages A o := by
        rw [← hcanon o hoM]
        exact hp
      rw [mem_canonFree] at hnotmem
      push_neg at hnotmem
      obtain ⟨hoM2, hbfb⟩ := hnotmem hbf
      have hoM3 : o < a.maxOrder := lt_of_le_of_ne hoM hoM2
      have hpair := blk_pair p o
      have hbfparent : BlockFree a.numPages A (p / 2) (o + 1) := by
        intro q hq
        rw [← hpair, Finset.mem_union] at hq
        rcases hq with h | h
        · exact hbf q h
        · exact hbfb q h
      obtain ⟨a1, hrec, hM1, hN1, hInv1⟩ :=
        ih a A (p / 2) (o + 1) (by omega) (by omega) ⟨hlen, hAsub, hcanon⟩ hbfparent
      rw [hrec]
      refine ⟨_, rfl, hM1, hN1, ?_⟩
      have hseteq : (A ∪ blk (p / 2) (o + 1)) \ blk (p ^^^ 1) o = A ∪ blk p o := by
        ext q
        simp only [Finset.mem_sdiff, Finset.mem_union, ← hpair]
        constructor
        · rintro ⟨hq | hq | hq, hnq⟩
          · exact Or.inl hq
          · exact Or.inr hq
          · exact absurd hq hnq
        · rintro (hq | hq)
          · exact ⟨Or.inl hq, fun hc => (hbfb q hc).2 hq⟩
          · refine ⟨Or.inr (Or.inl hq), fun hc => ?_⟩
            exact Finset.disjoint_left.mp (blk_disjoint (Ne.symm (xor_one_ne p))) hq hc
      have hsub1 : blk (p ^^^ 1) o ⊆ A ∪ blk (p / 2) (o + 1) :=
        (hpair ▸ Finset.subset_union_right).trans Finset.subset_union_right
      have hsubp : blk p o ⊆ A ∪ blk (p / 2) (o + 1) :=
        (hpair ▸ Finset.subset_union_left).trans Finset.subset_union_right
      have hN1b : ((p ^^^ 1) + 1) * 2 ^ o ≤ a.numPages := hbfb.bound
      have hbuddy1 : o = a.maxOrder ∨
          ¬ BlockFree a.numPages (A ∪ blk (p / 2) (o + 1)) ((p ^^^ 1) ^^^ 1) o := by
        refine Or.inr ?_
        rw [xor_one_xor_one]
        exact not_blockFree_of_alloc hsubp le_rfl.subset
      have hlen1 : a1.freeBits.length = a1.maxOrder + 1 := hInv1.1
      have holt1 : o < a1.freeBits.length := by rw [hlen1, hM1]; omega
      have hcanon1 : ∀ o4, o4 ≤ a.maxOrder →
          a1.order o4 = canonFree a.maxOrder a.numPages (A ∪ blk (p / 2) (o + 1)) o4 := by
        intro o4 ho4
        have h := hInv1.2.2 o4 (by omega)
        rw [hM1, hN1] at h
        exact h
      apply Inv_update hlen1 holt1
      · rw [hN1]
        apply Finset.union_subset hAsub
        intro q hq
        rw [Finset.mem_range]
        exact (hbf q hq).1
      · intro o2 ho2
        have ho2b : o2 ≤ a.maxOrder := by omega
        have hkey := canonFree_sdiff (M := a.maxOrder) (A := A ∪ blk (p / 2) (o + 1))
          hsub1 hN1b hbuddy1 (by omega) ho2b
        rw [hseteq] at hkey
        rw [hM1, hN1, hkey]
        by_cases he : o2 = o
        · subst he
          rw [if_pos rfl, if_pos rfl, hcanon1 o2 (by omega)]
        · rw [if_neg he, if_neg he, hcanon1 o2 ho2b]

/-! ### The freshly initialized allocator is the canonical empty state -/

theorem markAvailAux_run (N osz : ℕ) (hosz : 0 < osz) :
    ∀ fuel a s, N < a + fuel * osz → osz ∣ a →
      markAvailAux N osz fuel a s =
        (s ∪ Finset.Ico (a / osz) (a / osz + (N - a) / osz),
         a + osz * ((N - a) / osz)) := by
  intro fuel
  induction fuel with
  | zero =>
    intro a s hfuel hdvd
    have h0 : N - a = 0 := by omega
    rw [markAvailAux, h0]
    simp
  | succ fuel ih =>
    intro a s hfuel hdvd
    rw [markAvailAux]
    have hexp : (fuel + 1) * osz = fuel * osz + osz := by ring
    by_cases hle : a + osz ≤ N
    · rw [if_pos hle]
      rw [ih (a + osz) (insert (a / osz) s) (by omega) ((Nat.dvd_add_right hdvd).mpr dvd_rfl)]
      obtain ⟨k, rfl⟩ := hdvd
      have hk : osz * k / osz = k := Nat.mul_div_cancel_left k hosz
      have hk1 : (osz * k + osz) / osz = k + 1 := by
        have he : osz * k + osz = osz * (k + 1) := by ring
        rw [he, Nat.mul_div_cancel_left _ hosz]
      have ht : (N - (osz * k + osz)) / osz = (N - osz * k) / osz - 1 := by
        have h1 : N - (osz * k + osz) = N - osz * k - osz * 1 := by omega
        rw [h1, Nat.sub_mul_div (N - osz * k) osz 1 (by omega)]
      have htpos : 1 ≤ (N - osz * k) / osz := by
        rw [Nat.le_div_iff_mul_le hosz]
        omega
      rw [Prod.mk.injEq]
      constructor
      · rw [hk, hk1, ht]
        ext x
        simp only [Finset.mem_union, Finset.mem_insert, Finset.mem_Ico]
        constructor
        · rintro ((rfl | hx) | hx)
          · exact Or.inr (by omega)
          · exact Or.inl hx
          · exact Or.inr (by omega)
        · rintro (hx | hx)
          · exact Or.inl (Or.inr hx)
          · rcases eq_or_ne x k with rfl | hne
            · exact Or.inl (Or.inl rfl)
            · exact Or.inr (by omega)
      · rw [ht]
        have h2 : osz * ((N - osz * k) / osz - 1) = osz * ((N - osz * k) / osz) - osz := by
          rw [Nat.mul_sub]
          ring_nf
        have h3 : osz ≤ osz * ((N - osz * k) / osz) := by
          calc osz = osz * 1 := by ring
            _ ≤ osz * ((N - osz * k) / osz) := Nat.mul_le_mul_left osz htpos
        omega
    · rw [if_neg hle]
      have h0 : (N - a) / osz = 0 := by
        apply Nat.div_eq_of_lt
        omega
      rw [h0]
      simp

theorem initOrders_spec (N : ℕ) :
    ∀ o a, 2 ^ o ∣ a → a ≤ N →
      (initOrders N o a).2 = N ∧
      (initOrders N o a).1.length = o + 1 ∧
      ∀ i ≤ o, (initOrders N o a).1.getD i ∅ =
        if i = o then Finset.Ico (a / 2 ^ o) (a / 2 ^ o + (N - a) / 2 ^ o)
        else Finset.Ico ((N - N % 2 ^ (i + 1)) / 2 ^ i)
               ((N - N % 2 ^ (i + 1)) / 2 ^ i + (N % 2 ^ (i + 1)) / 2 ^ i) := by
  intro o
  induction o with
  | zero =>
    intro a hdvd ha
    rw [initOrders]
    rw [markAvailAux_run N 1 one_pos (N + 1) a ∅ (by omega) (one_dvd a)]
    refine ⟨by simp; omega, by simp, ?_⟩
    intro i hi
    interval_cases i
    simp
  | succ o ih =>
    intro a hdvd ha
    have hKpos : 0 < 2 ^ (o + 1) := Nat.two_pow_pos (o + 1)
    rw [initOrders]
    rw [markAvailAux_run N (2 ^ (o + 1)) hKpos (N + 1) a ∅ (by
      have h1 : N + 1 ≤ (N + 1) * 2 ^ (o + 1) := Nat.le_mul_of_pos_right _ hKpos
      omega) hdvd]
    have hmod : (N - a) % 2 ^ (o + 1) = N % 2 ^ (o + 1) := by
      obtain ⟨k, rfl⟩ := hdvd
      conv_rhs => rw [show N = (N - 2 ^ (o + 1) * k) + 2 ^ (o + 1) * k by omega]
      rw [Nat.add_mul_mod_self_left]
    have hacc : a + 2 ^ (o + 1) * ((N - a) / 2 ^ (o + 1)) = N - N % 2 ^ (o + 1) := by
      have h1 := Nat.div_add_mod (N - a) (2 ^ (o + 1))
      have h2 : N % 2 ^ (o + 1) ≤ N - a := by
        rw [← hmod]
        exact Nat.mod_le _ _
      omega
    rw [hacc]
    have hdvd2 : 2 ^ o ∣ N - N % 2 ^ (o + 1) := by
      have h1 : 2 ^ (o + 1) ∣ N - N % 2 ^ (o + 1) := Nat.dvd_sub_mod N
      exact dvd_trans (pow_dvd_pow 2 (by omega)) h1
    obtain ⟨hrec2, hreclen, hrecent⟩ := ih (N - N % 2 ^ (o + 1)) hdvd2 (by omega)
    refine ⟨by simpa using hrec2, by simpa using hreclen, ?_⟩
    intro i hi
    rcases eq_or_lt_of_le hi with rfl | hilt
    · rw [if_pos rfl]
      show ((initOrders N o (N - N % 2 ^ (o + 1))).1 ++
        [Finset.Ico (a / 2 ^ (o + 1)) (a / 2 ^ (o + 1) + (N - a) / 2 ^ (o + 1))]).getD
        (o + 1) ∅ = _
      rw [List.getD_eq_getElem?_getD, List.getElem?_append_right (by omega),
        hreclen]
      simp
    · have hi2 : i ≤ o := by omega
      have hne : i ≠ o + 1 := by omega
      rw [if_neg hne]
      have hent := hrecent i hi2
      show ((initOrders N o (N - N % 2 ^ (o + 1))).1 ++
        [Finset.Ico (a / 2 ^ (o + 1)) (a / 2 ^ (o + 1) + (N - a) / 2 ^ (o + 1))]).getD
        i ∅ = _
      rw [List.getD_eq_getElem?_getD, List.getElem?_append_left (by omega),
        ← List.getD_eq_getElem?_getD]
      rw [hent]
      by_cases hio : i = o
      · rw [if_pos hio, ← hio]
        have h5 : N - (N - N % 2 ^ (i + 1)) = N % 2 ^ (i + 1) := by
          have := Nat.mod_le N (2 ^ (i + 1))
          omega
        rw [h5]
      · rw [if_neg hio]

theorem initNew_maxOrder (N cap : ℕ) :
    (initNew N cap).maxOrder = calculateUsableOrder cap := rfl

theorem initNew_numPages (N cap : ℕ) : (initNew N cap).numPages = N := rfl

theorem blockFree_empty_iff {N c o : ℕ} :
    BlockFree N ∅ c o ↔ c + 1 ≤ N / 2 ^ o := by
  have hP := Nat.two_pow_pos o
  constructor
  · intro h
    exact (Nat.le_div_iff_mul_le hP).mpr h.bound
  · intro h p hp
    refine ⟨?_, by simp⟩
    have h2 : (c + 1) * 2 ^ o ≤ N := (Nat.le_div_iff_mul_le hP).mp h
    have h3 := (Finset.mem_Ico.mp hp).2
    omega

theorem canonFree_empty_top (M N : ℕ) :
    canonFree M N ∅ M = Finset.Ico 0 (N / 2 ^ M) := by
  ext c
  rw [mem_canonFree, Finset.mem_Ico, blockFree_empty_iff]
  constructor
  · rintro ⟨hbf, _⟩
    omega
  · rintro ⟨_, hc⟩
    exact ⟨by omega, Or.inl rfl⟩

theorem mod_two_pow_div {N o : ℕ} :
    N % 2 ^ (o + 1) / 2 ^ o = N / 2 ^ o - 2 * (N / 2 ^ (o + 1)) := by
  have hP := Nat.two_pow_pos o
  have h1 : N % 2 ^ (o + 1) = N - 2 ^ (o + 1) * (N / 2 ^ (o + 1)) := by
    have := Nat.div_add_mod N (2 ^ (o + 1))
    omega
  have h2 : 2 ^ (o + 1) * (N / 2 ^ (o + 1)) = 2 ^ o * (2 * (N / 2 ^ (o + 1))) := by
    rw [pow_succ]
    ring
  have h3 : 2 ^ o * (2 * (N / 2 ^ (o + 1))) ≤ N := by
    rw [← h2]
    have := Nat.div_add_mod N (2 ^ (o + 1))
    omega
  rw [h1, h2, Nat.sub_mul_div N (2 ^ o) _ h3]

theorem canonFree_empty_low (M N o : ℕ) (ho : o < M) :
    canonFree M N ∅ o =
      Finset.Ico ((N - N % 2 ^ (o + 1)) / 2 ^ o)
        ((N - N % 2 ^ (o + 1)) / 2 ^ o + N % 2 ^ (o + 1) / 2 ^ o) := by
  ext c
  rw [mem_canonFree, Finset.mem_Ico]
  have hP := Nat.two_pow_pos o
  have hq : (N - N % 2 ^ (o + 1)) / 2 ^ o = 2 * (N / 2 ^ (o + 1)) := by
    have h1 : N - N % 2 ^ (o + 1) = 2 ^ (o + 1) * (N / 2 ^ (o + 1)) := by
      have := Nat.div_add_mod N (2 ^ (o + 1))
      omega
    have h2 : 2 ^ (o + 1) * (N / 2 ^ (o + 1)) = 2 ^ o * (2 * (N / 2 ^ (o + 1))) := by
      rw [pow_succ]
      ring
    rw [h1, h2, Nat.mul_div_cancel_left _ hP]
  have hdd : N / 2 ^ o / 2 = N / 2 ^ (o + 1) := div_pow_succ N o
  have h2le : 2 * (N / 2 ^ (o + 1)) ≤ N / 2 ^ o := by
    rw [← hdd]
    omega
  have hbit := mod_two_pow_div (N := N) (o := o)
  have hxor := xor_one_cases c
  have hoM : o ≠ M := by omega
  constructor
  · rintro ⟨hbf, hcond⟩
    rw [blockFree_empty_iff] at hbf
    rcases hcond with h | h
    · exact absurd h hoM
    · rw [blockFree_empty_iff] at h
      by_cases hc2 : c % 2 = 0
      · rw [if_pos hc2] at hxor
        omega
      · rw [if_neg hc2] at hxor
        omega
  · rintro ⟨h1, h2⟩
    rw [blockFree_empty_iff]
    have hceq : c = 2 * (N / 2 ^ (o + 1)) := by omega
    refine ⟨by omega, Or.inr ?_⟩
    rw [blockFree_empty_iff]
    by_cases hc2 : c % 2 = 0
    · rw [if_pos hc2] at hxor
      omega
    · rw [if_neg hc2] at hxor
      omega

/-- A fresh allocator is in the canonical state for the empty allocated set. -/
theorem initNew_inv (N cap : ℕ) : Inv (initNew N cap) ∅ := by
  obtain ⟨hacc, hlen, hent⟩ :=
    initOrders_spec N (calculateUsableOrder cap) 0 (dvd_zero _) (Nat.zero_le N)
  refine ⟨hlen, by simp, ?_⟩
  intro o ho
  rw [initNew_maxOrder] at ho
  show (initOrders N (calculateUsableOrder cap) 0).1.getD o ∅ = _
  rw [hent o ho]
  rw [initNew_maxOrder, initNew_numPages]
  by_cases he : o = calculateUsableOrder cap
  · rw [if_pos he, he, canonFree_empty_top]
    simp
  · rw [if_neg he, canonFree_empty_low _ _ _ (by omega)]

theorem bit_sum (N : ℕ) :
    ∀ M, N / 2 ^ M * 2 ^ M +
      ∑ o ∈ Finset.range M, N % 2 ^ (o + 1) / 2 ^ o * 2 ^ o = N := by
  intro M
  induction M with
  | zero => simp
  | succ M ih =>
    rw [Finset.sum_range_succ]
    have hdd : N / 2 ^ M / 2 = N / 2 ^ (M + 1) := div_pow_succ N M
    have h2le : 2 * (N / 2 ^ (M + 1)) ≤ N / 2 ^ M := by
      rw [← hdd]
      omega
    have hb := mod_two_pow_div (N := N) (o := M)
    have hmul : (N / 2 ^ M - 2 * (N / 2 ^ (M + 1))) * 2 ^ M
        = N / 2 ^ M * 2 ^ M - N / 2 ^ (M + 1) * 2 ^ (M + 1) := by
      rw [Nat.sub_mul]
      congr 1
      rw [pow_succ]
      ring
    have hle2 : N / 2 ^ (M + 1) * 2 ^ (M + 1) ≤ N / 2 ^ M * 2 ^ M := by
      calc N / 2 ^ (M + 1) * 2 ^ (M + 1) = 2 * (N / 2 ^ (M + 1)) * 2 ^ M := by
            rw [pow_succ]
            ring
        _ ≤ N / 2 ^ M * 2 ^ M := Nat.mul_le_mul_right _ h2le
    rw [hb, hmul]
    omega

/-- Freshly initialized, every page is free: `count_free_pages = num_pages`. -/
theorem initNew_countFree (N cap : ℕ) : (initNew N cap).countFreePages = N := by
  have hcanon := (initNew_inv N cap).2.2
  show ∑ o ∈ Finset.range ((initNew N cap).maxOrder + 1),
      ((initNew N cap).order o).card * 2 ^ o = N
  rw [initNew_maxOrder, Finset.sum_range_succ]
  have htop : ((initNew N cap).order (calculateUsableOrder cap)).card
      = N / 2 ^ calculateUsableOrder cap := by
    rw [hcanon (calculateUsableOrder cap) (by rw [initNew_maxOrder]),
      initNew_maxOrder, initNew_numPages, canonFree_empty_top, Nat.card_Ico,
      Nat.sub_zero]
  have hlow : ∀ o ∈ Finset.range (calculateUsableOrder cap),
      ((initNew N cap).order o).card * 2 ^ o
        = N % 2 ^ (o + 1) / 2 ^ o * 2 ^ o := by
    intro o ho
    rw [Finset.mem_range] at ho
    rw [hcanon o (by rw [initNew_maxOrder]; omega), initNew_maxOrder, initNew_numPages,
      canonFree_empty_low _ _ _ ho, Nat.card_Ico, Nat.add_sub_cancel_left]
  rw [Finset.sum_congr rfl hlow, htop]
  have := bit_sum N (calculateUsableOrder cap)
  omega

/-- Freshly initialized, `count_allocated_pages() == 0` (the source test
`record_alloc_buddy` asserts this). -/
theorem initNew_countAllocated (N cap : ℕ) :
    (initNew N cap).countAllocatedPages = 0 := by
  show (initNew N cap).len - (initNew N cap).countFreePages = 0
  rw [initNew_countFree]
  show N - N = 0
  omega

/-! ### Reachable allocator states

`BAReach N cap a A` holds when allocator state `a` arises from
`init_new(N, cap)` by a legal sequence of operations, with ghost set `A`
recording the currently-allocated order-0 pages: `alloc` (always legal),
`record_alloc` of a block that is entirely available (the source requires the
pages to be free), and `free` of a block that was handed out and is still
entirely allocated. -/

inductive BAReach (N cap : ℕ) : BuddyAllocator → Finset ℕ → Prop
  | init : BAReach N cap (initNew N cap) ∅
  | alloc {a A o p a2} : BAReach N cap a A → a.alloc o = some (p, a2) →
      BAReach N cap a2 (A ∪ blk p o)
  | recordAlloc {a A p o a2} : BAReach N cap a A → BlockFree a.numPages A p o →
      a.recordAlloc p o = some a2 → BAReach N cap a2 (A ∪ blk p o)
  | free {a A p o a2} : BAReach N cap a A → blk p o ⊆ A →
      a.free p o = some a2 → BAReach N cap a2 (A \ blk p o)

/-- Every reachable state keeps `max_order` and `num_pages` and is in the
canonical state for its ghost allocated set. -/
theorem BAReach_inv {N cap : ℕ} {a : BuddyAllocator} {A : Finset ℕ}
    (h : BAReach N cap a A) :
    a.maxOrder = calculateUsableOrder cap ∧ a.numPages = N ∧ Inv a A := by
  induction h with
  | init => exact ⟨initNew_maxOrder N cap, initNew_numPages N cap, initNew_inv N cap⟩
  | @alloc a A o p a2 hre halloc ih =>
    obtain ⟨hM, hN, hInv⟩ := ih
    unfold alloc at halloc
    obtain ⟨hM2, hN2, hInv2, -, -⟩ :=
      allocAux_spec (a.maxOrder + 1 - o) a o rfl hInv p a2 halloc
    exact ⟨hM2.trans hM, hN2.trans hN, hInv2⟩
  | @recordAlloc a A p o a2 hre hbf hrec ih =>
    obtain ⟨hM, hN, hInv⟩ := ih
    unfold recordAlloc at hrec
    have hoM : o ≤ a.maxOrder := by
      by_contra hgt
      have h0 : a.maxOrder + 1 - o = 0 := by omega
      rw [h0] at hrec
      exact absurd hrec (by simp [recordAllocAux])
    obtain ⟨a3, he, hM2, hN2, hInv2⟩ :=
      recordAllocAux_spec (a.maxOrder + 1 - o) a A p o rfl hoM hInv hbf
    rw [he] at hrec
    injection hrec with h3
    subst h3
    exact ⟨hM2.trans hM, hN2.trans hN, hInv2⟩
  | @free a A p o a2 hre hsub hfree ih =>
    obtain ⟨hM, hN, hInv⟩ := ih
    have hbnd : (p + 1) * 2 ^ o ≤ a.numPages :=
      blk_subset_range (hsub.trans hInv.2.1)
    unfold free at hfree
    by_cases hoM : a.maxOrder < o
    · rw [if_pos hoM] at hfree
      exact absurd hfree (by simp)
    · rw [if_neg hoM] at hfree
      injection hfree with h3
      obtain ⟨hM2, hN2, hInv2⟩ :=
        freeAux_spec (a.maxOrder - o) a A p o rfl (by omega) hInv hsub hbnd
      rw [h3] at hM2 hN2 hInv2
      exact ⟨hM2.trans hM, hN2.trans hN, hInv2⟩

/-- A page cannot lie in canonical free blocks at two different orders. -/
theorem canonFree_nested {M N2 : ℕ} {A : Finset ℕ} {p o1 o2 : ℕ}
    (h12 : o1 < o2) (h2M : o2 ≤ M)
    (h1 : p / 2 ^ o1 ∈ canonFree M N2 A o1)
    (h2 : p / 2 ^ o2 ∈ canonFree M N2 A o2) : False := by
  obtain ⟨hbf1, hc1⟩ := mem_canonFree.mp h1
  obtain ⟨hbf2, -⟩ := mem_canonFree.mp h2
  rcases hc1 with he | hnb
  · omega
  · apply hnb
    refine blockFree_of_subset (blk_subset (le_of_lt h12) ?_) hbf2
    rw [xor_one_div_pow (by omega), div_pow_div, Nat.add_sub_cancel' (le_of_lt h12)]

/-- **C4.** In any allocator state reachable from `init_new`, `alloc(order)`
returns `None` exactly when no bitmap at any order `≥ order` has a clear bit
(in particular whenever `order > max_order`); when it returns `Some(page)`,
the order-`order` block of `page` was entirely free (part of a recorded free
block at some order `≥ order`) and the result state is the canonical state in
which that block has become allocated at the requested order. -/
theorem C4_alloc_spec {N cap : ℕ} {a : BuddyAllocator} {A : Finset ℕ}
    (hre : BAReach N cap a A) (o : ℕ) :
    (a.alloc o = none ↔ ∀ o2, o ≤ o2 → o2 ≤ a.maxOrder → a.order o2 = ∅) ∧
    (a.maxOrder < o → a.alloc o = none) ∧
    ∀ p a2, a.alloc o = some (p, a2) →
      BlockFree a.numPages A p o ∧
      (∃ o3, o ≤ o3 ∧ o3 ≤ a.maxOrder ∧ p / 2 ^ (o3 - o) ∈ a.order o3) ∧
      a2.maxOrder = a.maxOrder ∧ a2.numPages = a.numPages ∧
      Inv a2 (A ∪ blk p o) := by
  have hInv := (BAReach_inv hre).2.2
  refine ⟨allocAux_none_iff a (a.maxOrder + 1 - o) o rfl, ?_, ?_⟩
  · intro hgt
    have h0 : a.maxOrder + 1 - o = 0 := by omega
    unfold alloc
    rw [h0]
    rfl
  · intro p a2 halloc
    unfold alloc at halloc
    obtain ⟨hM2, hN2, hInv2, hbf, hex⟩ :=
      allocAux_spec (a.maxOrder + 1 - o) a o rfl hInv p a2 halloc
    exact ⟨hbf, hex, hM2, hN2, hInv2⟩

theorem C4_witness :
    (((initNew 4 4).alloc 0 = none ↔
        ∀ o2, 0 ≤ o2 → o2 ≤ (initNew 4 4).maxOrder → (initNew 4 4).order o2 = ∅) ∧
      ((initNew 4 4).maxOrder < 0 → (initNew 4 4).alloc 0 = none) ∧
      ∀ p a2, (initNew 4 4).alloc 0 = some (p, a2) →
        BlockFree (initNew 4 4).numPages ∅ p 0 ∧
        (∃ o3, 0 ≤ o3 ∧ o3 ≤ (initNew 4 4).maxOrder ∧
          p / 2 ^ (o3 - 0) ∈ (initNew 4 4).order o3) ∧
        a2.maxOrder = (initNew 4 4).maxOrder ∧ a2.numPages = (initNew 4 4).numPages ∧
        Inv a2 (∅ ∪ blk p 0)) :=
  C4_alloc_spec (@BAReach.init 4 4) 0

/-- **C5.** In every reachable state under legal `alloc` / `record_alloc` /
`free` sequences, every page is free at at most one order, and for every order
strictly below `max_order` the buddy `b ^^^ 1` of every free block `b` is
allocated: it is not recorded free at that order, and its block is not
entirely available. -/
theorem C5_buddy_invariants {N cap : ℕ} {a : BuddyAllocator} {A : Finset ℕ}
    (hre : BAReach N cap a A) :
    (∀ p o1 o2, o1 ≤ a.maxOrder → o2 ≤ a.maxOrder →
      p / 2 ^ o1 ∈ a.order o1 → p / 2 ^ o2 ∈ a.order o2 → o1 = o2) ∧
    (∀ o, o < a.maxOrder → ∀ b ∈ a.order o,
      (b ^^^ 1) ∉ a.order o ∧ ¬ BlockFree a.numPages A (b ^^^ 1) o) := by
  obtain ⟨-, -, hlen, hAsub, hcanon⟩ := BAReach_inv hre
  constructor
  · intro p o1 o2 h1M h2M hm1 hm2
    rw [hcanon o1 h1M] at hm1
    rw [hcanon o2 h2M] at hm2
    by_contra hne
    rcases Nat.lt_or_ge o1 o2 with hlt | hge
    · exact canonFree_nested hlt h2M hm1 hm2
    · exact canonFree_nested (by omega) h1M hm2 hm1
  · intro o hoM b hb
    rw [hcanon o (by omega)] at hb
    obtain ⟨hbf, hc⟩ := mem_canonFree.mp hb
    have hnb : ¬ BlockFree a.numPages A (b ^^^ 1) o := by
      rcases hc with he | h
      · omega
      · exact h
    refine ⟨?_, hnb⟩
    intro hb2
    rw [hcanon o (by omega)] at hb2
    exact hnb (mem_canonFree.mp hb2).1

theorem C5_witness :
    ((∀ p o1 o2, o1 ≤ (⟨2, 4, [{1}, {1}, ∅]⟩ : BuddyAllocator).maxOrder →
        o2 ≤ (⟨2, 4, [{1}, {1}, ∅]⟩ : BuddyAllocator).maxOrder →
        p / 2 ^ o1 ∈ (⟨2, 4, [{1}, {1}, ∅]⟩ : BuddyAllocator).order o1 →
        p / 2 ^ o2 ∈ (⟨2, 4, [{1}, {1}, ∅]⟩ : BuddyAllocator).order o2 → o1 = o2) ∧
      (∀ o, o < (⟨2, 4, [{1}, {1}, ∅]⟩ : BuddyAllocator).maxOrder →
        ∀ b ∈ (⟨2, 4, [{1}, {1}, ∅]⟩ : BuddyAllocator).order o,
          (b ^^^ 1) ∉ (⟨2, 4, [{1}, {1}, ∅]⟩ : BuddyAllocator).order o ∧
          ¬ BlockFree (⟨2, 4, [{1}, {1}, ∅]⟩ : BuddyAllocator).numPages
            (∅ ∪ blk 0 0) (b ^^^ 1) o)) :=
  C5_buddy_invariants
    (@BAReach.alloc 4 4 (initNew 4 4) ∅ 0 0 ⟨2, 4, [{1}, {1}, ∅]⟩
      (@BAReach.init 4 4) (by decide))

/-- **C6.** After any legal interleaving of `alloc` and `free` (and
`record_alloc`) in which every `free` undoes an outstanding allocation — so
the ghost allocated set is back to `∅` — the bitmaps equal those produced by
`init_new` and `count_allocated_pages()` returns `0`. -/
theorem C6_free_undoes_all {N cap : ℕ} {a : BuddyAllocator} {A : Finset ℕ}
    (hre : BAReach N cap a A) (hA : A = ∅) :
    a.freeBits = (initNew N cap).freeBits ∧ a.countAllocatedPages = 0 := by
  obtain ⟨hM, hN, hlen, hAsub, hcanon⟩ := BAReach_inv hre
  subst hA
  obtain ⟨hlen0, -, hcanon0⟩ := initNew_inv N cap
  have hfb : a.freeBits = (initNew N cap).freeBits := by
    apply List.ext_getElem
    · rw [hlen, hlen0, hM, initNew_maxOrder]
    · intro i h1 h2
      have hiM : i ≤ a.maxOrder := by omega
      have h3 : a.order i = (initNew N cap).order i := by
        rw [hcanon i hiM, hcanon0 i (by rw [initNew_maxOrder]; omega),
          hM, hN, initNew_maxOrder, initNew_numPages]
      have h4 : a.freeBits.getD i ∅ = (initNew N cap).freeBits.getD i ∅ := h3
      rwa [List.getD_eq_getElem _ _ h1, List.getD_eq_getElem _ _ h2] at h4
  refine ⟨hfb, ?_⟩
  have hcf : a.countFreePages = N := by
    have h5 : a.countFreePages = (initNew N cap).countFreePages := by
      unfold countFreePages order
      rw [hfb, hM, initNew_maxOrder]
    rw [h5, initNew_countFree]
  show a.len - a.countFreePages = 0
  rw [hcf]
  show a.numPages - N = 0
  omega

theorem C6_witness :
    (⟨2, 4, [∅, ∅, {0}]⟩ : BuddyAllocator).freeBits = (initNew 4 4).freeBits ∧
    (⟨2, 4, [∅, ∅, {0}]⟩ : BuddyAllocator).countAllocatedPages = 0 :=
  C6_free_undoes_all
    (@BAReach.free 4 4 ⟨2, 4, [{1}, {1}, ∅]⟩ (∅ ∪ blk 0 0) 0 0 ⟨2, 4, [∅, ∅, {0}]⟩
      (@BAReach.alloc 4 4 (initNew 4 4) ∅ 0 0 ⟨2, 4, [{1}, {1}, ∅]⟩
        (@BAReach.init 4 4) (by decide))
      (by decide) (by decide))
    (by decide)

end BuddyAllocator

/-! ### Arithmetic helpers of `page_manager.rs` -/

/-- Fuel-based count of trailing zero bits; `usize::trailing_zeros(0)` is the
bit width (64 in the source's builds). -/
def trailingZerosAux : ℕ → ℕ → ℕ
  | 0, _ => 0
  | fuel + 1, n => if n % 2 = 0 then trailingZerosAux fuel (n / 2) + 1 else 0

def natTrailingZeros (n : ℕ) : ℕ := if n = 0 then 64 else trailingZerosAux 64 n

/-- Source: `x.is_power_of_two()` (for the `usize` range). -/
def natIsPowerOfTwo (x : ℕ) : Bool := (List.range 64).any fun k => x == 2 ^ k

/-- Source: `x.next_power_of_two()` (for the `usize` range). -/
def natNextPowerOfTwo (x : ℕ) : ℕ :=
  (((List.range 64).map fun k => 2 ^ k).find? fun v => decide (x ≤ v)).getD 0

/-- Source: `ceil_log2(x)`: `trailing_zeros` of `x` if a power of two, else of
`x.next_power_of_two()`. -/
def ceil_log2 (x : ℕ) : ℕ :=
  if natIsPowerOfTwo x then natTrailingZeros x else natTrailingZeros (natNextPowerOfTwo x)

example : ceil_log2 1 = 0 := by decide
example : ceil_log2 2 = 1 := by decide
example : ceil_log2 3 = 2 := by decide
example : ceil_log2 4 = 2 := by decide
example : ceil_log2 5 = 3 := by decide

namespace BuddyAllocator

/-- The `self.free(page, order)` calls inside `resize` always have
`order ≤ max_order` (the loops break or bound `order` first), so the
`order > max_order` failure of the wrapper cannot occur; `freeT` is that
call without the wrapper's guard. -/
def freeT (a : BuddyAllocator) (p o : ℕ) : BuddyAllocator :=
  freeAux (a.maxOrder - o) a p o

/-- Source: the first while loop of `resize` in the growing direction: align
`processed_pages` upward by freeing blocks at `order = trailing_zeros`, while
`order < max_order` and the block fits below `new_size`. -/
def resizeGrowAlign : ℕ → BuddyAllocator → ℕ → ℕ → BuddyAllocator × ℕ
  | 0, a, processed, _ => (a, processed)
  | fuel + 1, a, processed, newSize =>
    if processed < newSize then
      let o := natTrailingZeros processed
      if a.maxOrder ≤ o ∨ newSize < processed + 2 ^ o then (a, processed)
      else resizeGrowAlign fuel (freeT a (processed / 2 ^ o) o) (processed + 2 ^ o) newSize
    else (a, processed)

/-- Source: the inner while loop of `resize`'s second growing phase: free
blocks of one order while they fit below `new_size`. -/
def resizeFreeLoop : ℕ → BuddyAllocator → ℕ → ℕ → ℕ → BuddyAllocator × ℕ
  | 0, a, _, processed, _ => (a, processed)
  | fuel + 1, a, o, processed, limit =>
    if processed + 2 ^ o ≤ limit then
      resizeFreeLoop fuel (freeT a (processed / 2 ^ o) o) o (processed + 2 ^ o) limit
    else (a, processed)

/-- Source: `for order in (0..=max_order).rev()` of `resize` (growing). -/
def resizeGrowOrders : List ℕ → ℕ → BuddyAllocator × ℕ → BuddyAllocator × ℕ
  | [], _, st => st
  | o :: rest, limit, st => resizeGrowOrders rest limit (resizeFreeLoop limit st.1 o st.2 limit)

/-- Source: the inner while loop of `resize`'s second shrinking phase:
`record_alloc` blocks of one order while they fit below `self.len()`. -/
def resizeAllocLoop : ℕ → BuddyAllocator → ℕ → ℕ → ℕ → Option (BuddyAllocator × ℕ)
  | 0, a, _, processed, _ => some (a, processed)
  | fuel + 1, a, o, processed, limit =>
    if processed + 2 ^ o ≤ limit then
      match a.recordAlloc (processed / 2 ^ o) o with
      | none => none
      | some a2 => resizeAllocLoop fuel a2 o (processed + 2 ^ o) limit
    else some (a, processed)

/-- Source: `for order in (0..=max_order).rev()` of `resize` (shrinking). -/
def resizeShrinkOrders : List ℕ → ℕ → Option (BuddyAllocator × ℕ) → Option (BuddyAllocator × ℕ)
  | [], _, st => st
  | o :: rest, limit, st =>
    match st with
    | none => none
    | some st1 => resizeShrinkOrders rest limit (resizeAllocLoop limit st1.1 o st1.2 limit)

/-- Source: the first while loop of `resize` in the shrinking direction:
align `processed_pages` upward by `record_alloc`ing blocks at
`order = trailing_zeros`. -/
def resizeShrinkAlign : ℕ → BuddyAllocator → ℕ → ℕ → Option (BuddyAllocator × ℕ)
  | 0, a, processed, _ => some (a, processed)
  | fuel + 1, a, processed, oldLen =>
    if processed < oldLen then
      let o := natTrailingZeros processed
      if a.maxOrder ≤ o ∨ oldLen < processed + 2 ^ o then some (a, processed)
      else
        match a.recordAlloc (processed / 2 ^ o) o with
        | none => none
        | some a2 => resizeShrinkAlign fuel a2 (processed + 2 ^ o) oldLen
    else some (a, processed)

/-- Source: `BuddyAllocatorMut::resize(new_size)`: grow by freeing the added
page range (aligned, then order-greedy), or shrink by `record_alloc`ing the
removed range; finally store the new `num_pages`. `none` models the
`assert_eq!(processed_pages, ...)` and `record_alloc` assertion failures,
which do not occur on the in-range inputs used by the engine. -/
def resize (a : BuddyAllocator) (newSize : ℕ) : Option BuddyAllocator :=
  if a.numPages < newSize then
    let st1 := resizeGrowAlign newSize a a.numPages newSize
    let st2 := resizeGrowOrders (List.range (a.maxOrder + 1)).reverse newSize st1
    if st2.2 = newSize then some { st2.1 with numPages := newSize } else none
  else
    match resizeShrinkAlign a.numPages a newSize a.numPages with
    | none => none
    | some st1 =>
      match resizeShrinkOrders (List.range (a.maxOrder + 1)).reverse a.numPages (some st1) with
      | none => none
      | some st2 =>
        if st2.2 = a.numPages then some { st2.1 with numPages := newSize } else none

example :
    (initNew 16 16).resize 10 =
      some ⟨4, 10, [∅, {4}, ∅, {0}, ∅]⟩ := by decide

end BuddyAllocator

/-! ### The page-store engine (`TransactionalMemory`), at page granularity

Pages are identified as in the source by `(region, page_index, page_order)`.
Byte quantities (`usable_bytes`, `allocation_size`) are modelled in units of
pages where the source divides by `page_size` anyway; storage I/O is modelled
as an emitted event list; cache invalidation/cancellation and checksum
computation have no allocator-visible effect and are omitted. -/

def emptyBA : BuddyAllocator := ⟨0, 0, []⟩

structure PageNumberE where
  region : ℕ
  pageIndex : ℕ
  pageOrder : ℕ
deriving DecidableEq

/-- Source: `enum AllocationOp`. -/
inductive AllocationOp where
  | allocateOp (p : PageNumberE)
  | freeOp (p : PageNumberE)
  | freeUncommittedOp (p : PageNumberE)
deriving DecidableEq

/-- Source: `enum ChecksumType`. -/
inductive ChecksumTypeE where
  | unused
  | xxh3
deriving DecidableEq

/-- One header slot (`TransactionHeader`): the fields `commit` and
`non_durable_commit` write. A layout is its list of per-region data-page
counts. -/
structure Slot where
  checksumType : ChecksumTypeE
  transactionId : ℕ
  root : Option (PageNumberE × ℕ)
  freedRoot : Option (PageNumberE × ℕ)
  layout : List ℕ
  regionTracker : PageNumberE
deriving DecidableEq

/-- The dual-slot database header: `primaryBit` selects the primary slot. -/
structure HeaderE where
  primaryBit : Bool
  slot0 : Slot
  slot1 : Slot
  recoveryRequired : Bool
deriving DecidableEq

namespace HeaderE

def primarySlot (h : HeaderE) : Slot := if h.primaryBit then h.slot1 else h.slot0

def secondarySlot (h : HeaderE) : Slot := if h.primaryBit then h.slot0 else h.slot1

/-- Source: `secondary_slot_mut()` assignments. -/
def setSecondary (h : HeaderE) (s : Slot) : HeaderE :=
  if h.primaryBit then { h with slot0 := s } else { h with slot1 := s }

/-- Source: `swap_primary_slot()`. -/
def swapPrimary (h : HeaderE) : HeaderE := { h with primaryBit := !h.primaryBit }

theorem secondarySlot_setSecondary (h : HeaderE) (s : Slot) :
    (h.setSecondary s).secondarySlot = s := by
  cases hb : h.primaryBit <;> simp [setSecondary, secondarySlot, hb]

theorem primaryBit_setSecondary (h : HeaderE) (s : Slot) :
    (h.setSecondary s).primaryBit = h.primaryBit := by
  cases hb : h.primaryBit <;> simp [setSecondary, hb]

theorem primarySlot_setSecondary (h : HeaderE) (s : Slot) :
    (h.setSecondary s).primarySlot = h.primarySlot := by
  cases hb : h.primaryBit <;> simp [setSecondary, primarySlot, hb]

end HeaderE

/-- The storage operations observable in `commit`, `non_durable_commit` and
`rollback_uncommitted_writes`. A header write records the header content and
the `swap_primary` serialization flag. -/
inductive StorageEvent where
  | writeHeader (h : HeaderE) (swapPrimary : Bool)
  | flushEv
  | eventualFlushEv
  | writeBarrierEv
  | resizeFile (layout : List ℕ)
deriving DecidableEq

/-- The region tracker, one clear-bit set per order (21 orders): membership
of `r` at order `o` means the bit `(o, r)` is **clear** (region `r` may have
a free block of order `≥ o`). `RegionTracker::init_new` sets every bit, i.e.
every clear-set is empty. -/
def trackerMarkFree : List (Finset ℕ) → ℕ → ℕ → List (Finset ℕ)
  | [], _, _ => []
  | s :: rest, 0, r => insert r s :: rest
  | s :: rest, o + 1, r => insert r s :: trackerMarkFree rest o r

/-- Source: `RegionTracker::mark_full(order, region)`: set bits at orders
`order..num_orders`. -/
def trackerMarkFull : List (Finset ℕ) → ℕ → ℕ → List (Finset ℕ)
  | [], _, _ => []
  | s :: rest, 0, r => s.erase r :: trackerMarkFull rest 0 r
  | s :: rest, o + 1, r => s :: trackerMarkFull rest o r

/-- Source: `RegionTracker::find_free(order)`: first unset bit of the
order-`order` bitmap. -/
def trackerFindFree (t : List (Finset ℕ)) (o : ℕ) : Option ℕ :=
  bmFindFirstUnset (t.getD o ∅)

/-- The in-memory engine state (`TransactionalMemory` minus I/O plumbing):
the header (both slots), the per-region buddy allocators, the region
tracker, the in-progress layout and tracker page, `allocated_since_commit`,
`log_since_commit`, `read_from_secondary`, and the static geometry. -/
structure EngineState where
  header : HeaderE
  regions : List BuddyAllocator
  tracker : List (Finset ℕ)
  layout : List ℕ
  trackerPage : PageNumberE
  allocatedSinceCommit : Finset PageNumberE
  logSinceCommit : List AllocationOp
  readFromSecondary : Bool
  pageSize : ℕ
  regionMaxPages : ℕ
deriving DecidableEq

/-- Total data pages of a layout (`DatabaseLayout` length, in pages). -/
def layoutTotal (l : List ℕ) : ℕ := l.sum

/-- Modelled from the spec: `layout.rs` (`DatabaseLayout::calculate`) is not
in the provided sources. §4.4: zero or more full regions of
`region_max_data_pages` data pages, and optionally one trailing region with
the remaining pages. (The `MIN_USABLE_PAGES` floor and the `NUM_REGIONS` cap
of §4.4 are constraints on the arguments, not reflected here.) -/
def layoutCalculate (usablePages regionMaxPages : ℕ) : List ℕ :=
  let full := usablePages / regionMaxPages
  let rem := usablePages % regionMaxPages
  if rem = 0 then List.replicate full regionMaxPages
  else List.replicate full regionMaxPages ++ [rem]

namespace Engine

/-- Source: the grow branch of `Allocators::resize_to`: walk the new layout;
existing regions are `resize`d up (then `mark_free(highest_free_order, i)`),
new regions are initialized fresh (then `mark_free(highest_free_order, i)`).
`none` models the `assert!` / `unwrap()` failures. -/
def growRegions (fullRegionPages oldCount : ℕ) :
    ℕ → List ℕ → List BuddyAllocator → List (Finset ℕ) →
    Option (List BuddyAllocator × List (Finset ℕ))
  | _, [], regions, tracker => some (regions, tracker)
  | i, pages :: rest, regions, tracker =>
    if i < oldCount then
      let a := regions.getD i emptyBA
      if pages = a.len then growRegions fullRegionPages oldCount (i + 1) rest regions tracker
      else if pages < a.len then none
      else
        match a.resize pages with
        | none => none
        | some a2 =>
          match a2.highestFreeOrder with
          | none => none
          | some hf =>
            growRegions fullRegionPages oldCount (i + 1) rest
              (regions.set i a2) (trackerMarkFree tracker hf i)
    else
      let a2 := BuddyAllocator.initNew pages fullRegionPages
      match a2.highestFreeOrder with
      | none => none
      | some hf =>
        growRegions fullRegionPages oldCount (i + 1) rest
          (regions ++ [a2]) (trackerMarkFree tracker hf i)

/-- Source: `Allocators::resize_to(new_layout)`: decide the direction; on
shrink, `mark_full(0, i)` for each dropped region, drop them, and `resize`
the last kept region down if needed; on grow, extend via `growRegions`;
no-op when the sizes already match. -/
def resizeTo (regions : List BuddyAllocator) (tracker : List (Finset ℕ))
    (newLayout : List ℕ) (fullRegionPages : ℕ) :
    Option (List BuddyAllocator × List (Finset ℕ)) :=
  let newCount := newLayout.length
  let oldCount := regions.length
  let lastPages := newLayout.getD (newCount - 1) fullRegionPages
  let shrinkPath : Option (List BuddyAllocator × List (Finset ℕ)) :=
    let tracker2 := (List.range (oldCount - newCount)).foldl
      (fun t j => trackerMarkFull t 0 (newCount + j)) tracker
    let regions2 := regions.take newCount
    let a := regions2.getD (newCount - 1) emptyBA
    if lastPages < a.len then
      match a.resize lastPages with
      | none => none
      | some a2 => some (regions2.set (newCount - 1) a2, tracker2)
    else some (regions2, tracker2)
  if newCount < oldCount then shrinkPath
  else if newCount = oldCount then
    let lastLen := (regions.getD (oldCount - 1) emptyBA).len
    if lastPages < lastLen then shrinkPath
    else if lastPages = lastLen then some (regions, tracker)
    else growRegions fullRegionPages oldCount 0 newLayout regions tracker
  else growRegions fullRegionPages oldCount 0 newLayout regions tracker

/-- Source: `TransactionalMemory::try_shrink` (in pages): compute the last
region's trailing-free pages; refuse below half; otherwise compute the
reduced layout via the layout calculator, `resize_to` the allocators, and
install the new in-progress layout. -/
def tryShrink (s : EngineState) : Option (Bool × EngineState) :=
  let lastIdx := s.layout.length - 1
  let lastPages := s.layout.getD lastIdx 0
  let a := s.regions.getD lastIdx emptyBA
  let trailingFree := a.trailingFreePages
  let n := a.len
  if trailingFree < n / 2 then some (false, s)
  else
    let reduceTo :=
      if 1 < s.layout.length ∧ trailingFree = n then 0
      else max MIN_USABLE_PAGES (n - trailingFree / 2)
    let newUsablePages :=
      if reduceTo = 0 then layoutTotal s.layout - lastPages
      else layoutTotal s.layout - (n - reduceTo)
    let newLayout := layoutCalculate newUsablePages s.regionMaxPages
    match resizeTo s.regions s.tracker newLayout s.regionMaxPages with
    | none => none
    | some rt =>
      if layoutTotal newLayout ≤ layoutTotal s.layout then
        some (true, { s with regions := rt.1, tracker := rt.2, layout := newLayout })
      else none

/-- Source: `TransactionalMemory::allocate_helper(required_order)`: loop —
consult the tracker; on a candidate, try that region's buddy allocator; on
failure `mark_full(required_order, candidate)` and retry. Each failed round
removes the candidate from the order's clear-set, so `NUM_REGIONS + 1` fuel
rounds cover every possible iteration of the source loop. -/
def allocateHelper : ℕ → List BuddyAllocator → List (Finset ℕ) → ℕ →
    Option (PageNumberE × List BuddyAllocator × List (Finset ℕ))
  | 0, _, _, _ => none
  | fuel + 1, regions, t, o =>
    match trackerFindFree t o with
    | none => none
    | some r =>
      match (regions.getD r emptyBA).alloc o with
      | some res => some (⟨r, res.1, o⟩, regions.set r res.2, t)
      | none => allocateHelper fuel regions (trackerMarkFull t o r) o

/-- Source: `TransactionalMemory::allocate(allocation_size)`, without the
`grow` fallback leg (file growth is outside this model; an allocation that
would need it returns `none` here): compute the required order, run
`allocate_helper`, record the page in `allocated_since_commit` and log
`Allocate`. -/
def allocate (s : EngineState) (allocationSize : ℕ) :
    Option (PageNumberE × EngineState) :=
  let requiredPages := (allocationSize + s.pageSize - 1) / s.pageSize
  let requiredOrder := ceil_log2 requiredPages
  match allocateHelper (NUM_REGIONS + 1) s.regions s.tracker requiredOrder with
  | none => none
  | some res =>
    some (res.1, { s with
      regions := res.2.1,
      tracker := res.2.2,
      allocatedSinceCommit := insert res.1 s.allocatedSinceCommit,
      logSinceCommit := s.logSinceCommit ++ [AllocationOp.allocateOp res.1] })

/-- Source: `TransactionalMemory::free(page)` (deferred free): free in the
region's buddy allocator, `mark_free(page_order, region)` in the tracker,
log `Free`. `none` models the buddy allocator's assertion failure. -/
def freeDeferred (s : EngineState) (p : PageNumberE) : Option EngineState :=
  match (s.regions.getD p.region emptyBA).free p.pageIndex p.pageOrder with
  | none => none
  | some a2 =>
    some { s with
      regions := s.regions.set p.region a2,
      tracker := trackerMarkFree s.tracker p.pageOrder p.region,
      logSinceCommit := s.logSinceCommit ++ [AllocationOp.freeOp p] }

/-- Source: `TransactionalMemory::free_if_uncommitted(page)`: iff the page is
in `allocated_since_commit`, remove it, free it in the region allocator,
`mark_free` in the tracker, log `FreeUncommitted`, and return `true`;
otherwise return `false` changing nothing. -/
def freeIfUncommitted (s : EngineState) (p : PageNumberE) :
    Option (EngineState × Bool) :=
  if p ∈ s.allocatedSinceCommit then
    match (s.regions.getD p.region emptyBA).free p.pageIndex p.pageOrder with
    | none => none
    | some a2 =>
      some ({ s with
        allocatedSinceCommit := s.allocatedSinceCommit.erase p,
        regions := s.regions.set p.region a2,
        tracker := trackerMarkFree s.tracker p.pageOrder p.region,
        logSinceCommit := s.logSinceCommit ++ [AllocationOp.freeUncommittedOp p] }, true)
  else some (s, false)

/-- Source: `TransactionalMemory::commit(...)`. Storage operations are
emitted as events, numbered in order; `failAt = some i` makes the `i`-th
storage operation fail (`Err`), upon which commit returns early with the
events completed so far and `false`. The in-memory primary bit is swapped
only after the final flush; the clears happen only at full success. -/
def commit (s : EngineState) (dataRoot freedRoot : Option (PageNumberE × ℕ))
    (txid : ℕ) (eventual : Bool) (newChecksum : Option ChecksumTypeE)
    (failAt : Option ℕ) : Option (EngineState × List StorageEvent × Bool) :=
  let checksumType := newChecksum.getD s.header.primarySlot.checksumType
  match tryShrink s with
  | none => none
  | some ts =>
    let shrunk := ts.1
    let s1 := ts.2
    let secondary : Slot :=
      ⟨checksumType, txid, dataRoot, freedRoot, s1.layout, s1.trackerPage⟩
    let s2 := { s1 with header := s1.header.setSecondary secondary }
    let flushEvent := if eventual then StorageEvent.eventualFlushEv else StorageEvent.flushEv
    if failAt = some 0 then some (s2, [], false) else
    if checksumType = ChecksumTypeE.unused then
      if failAt = some 1 then some (s2, [StorageEvent.writeHeader s2.header false], false) else
      if failAt = some 2 then
        some (s2, [StorageEvent.writeHeader s2.header false, flushEvent], false) else
      if failAt = some 3 then
        some (s2, [StorageEvent.writeHeader s2.header false, flushEvent,
          StorageEvent.writeHeader s2.header true], false) else
      let s3 := { s2 with header := s2.header.swapPrimary }
      let evs := [StorageEvent.writeHeader s2.header false, flushEvent,
        StorageEvent.writeHeader s2.header true, flushEvent]
      if shrunk then
        if failAt = some 4 then some (s3, evs, false) else
        some ({ s3 with logSinceCommit := [], allocatedSinceCommit := ∅, readFromSecondary := false }, evs ++ [StorageEvent.resizeFile s3.layout], true)
      else
        some ({ s3 with logSinceCommit := [], allocatedSinceCommit := ∅, readFromSecondary := false }, evs, true)
    else
      if failAt = some 1 then
        some (s2, [StorageEvent.writeHeader s2.header false], false) else
      if failAt = some 2 then
        some (s2, [StorageEvent.writeHeader s2.header false,
          StorageEvent.writeHeader s2.header true], false) else
      let s3 := { s2 with header := s2.header.swapPrimary }
      let evs := [StorageEvent.writeHeader s2.header false,
        StorageEvent.writeHeader s2.header true, flushEvent]
      if shrunk then
        if failAt = some 3 then some (s3, evs, false) else
        some ({ s3 with logSinceCommit := [], allocatedSinceCommit := ∅, readFromSecondary := false }, evs ++ [StorageEvent.resizeFile s3.layout], true)
      else
        some ({ s3 with logSinceCommit := [], allocatedSinceCommit := ∅, readFromSecondary := false }, evs, true)

/-- Source: `TransactionalMemory::non_durable_commit(...)`: update the
in-memory secondary slot, clear `log_since_commit` and
`allocated_since_commit`, issue a write barrier, set
`read_from_secondary := true`. -/
def nonDurableCommit (s : EngineState) (dataRoot freedRoot : Option (PageNumberE × ℕ))
    (txid : ℕ) (failAt : Option ℕ) : EngineState × List StorageEvent × Bool :=
  let checksumType := s.header.primarySlot.checksumType
  let secondary : Slot :=
    ⟨checksumType, txid, dataRoot, freedRoot, s.layout, s.trackerPage⟩
  let s1 := { s with header := s.header.setSecondary secondary, logSinceCommit := [], allocatedSinceCommit := ∅ }
  if failAt = some 0 then (s1, [], false)
  else ({ s1 with readFromSecondary := true }, [StorageEvent.writeBarrierEv], true)

/-- Source: one undo step of `rollback_uncommitted_writes`: `Allocate` is
undone by `mark_free` + buddy `free`; `Free`/`FreeUncommitted` by buddy
`record_alloc`. -/
def rollbackOp (s : EngineState) : AllocationOp → Option EngineState
  | .allocateOp p =>
    match (s.regions.getD p.region emptyBA).free p.pageIndex p.pageOrder with
    | none => none
    | some a2 =>
      some { s with
        tracker := trackerMarkFree s.tracker p.pageOrder p.region,
        regions := s.regions.set p.region a2 }
  | .freeOp p =>
    match (s.regions.getD p.region emptyBA).recordAlloc p.pageIndex p.pageOrder with
    | none => none
    | some a2 => some { s with regions := s.regions.set p.region a2 }
  | .freeUncommittedOp p =>
    match (s.regions.getD p.region emptyBA).recordAlloc p.pageIndex p.pageOrder with
    | none => none
    | some a2 => some { s with regions := s.regions.set p.region a2 }

def rollbackOps : List AllocationOp → EngineState → Option EngineState
  | [], s => some s
  | op :: rest, s =>
    match rollbackOp s op with
    | none => none
    | some s2 => rollbackOps rest s2

/-- Source: `TransactionalMemory::rollback_uncommitted_writes()`: pick the
restore slot (secondary iff `read_from_secondary`), undo the log in reverse,
clear `allocated_since_commit`; if the restore layout is strictly smaller,
resize the last restored region's allocator, install the restored layout and
tracker page, and `storage.resize` back down. -/
def rollback (s : EngineState) (failAt : Option ℕ) :
    Option (EngineState × List StorageEvent × Bool) :=
  let restoreSlot := if s.readFromSecondary then s.header.secondarySlot
    else s.header.primarySlot
  let restore := restoreSlot.layout
  match rollbackOps s.logSinceCommit.reverse s with
  | none => none
  | some s1 =>
    let s2 := { s1 with logSinceCommit := [], allocatedSinceCommit := ∅ }
    if layoutTotal restore ≤ layoutTotal s2.layout then
      if layoutTotal restore < layoutTotal s2.layout then
        let lastIdx := restore.length - 1
        let lastPages := restore.getD lastIdx 0
        match (s2.regions.getD lastIdx emptyBA).resize lastPages with
        | none => none
        | some a2 =>
          let s3 := { s2 with regions := s2.regions.set lastIdx a2, layout := restore, trackerPage := restoreSlot.regionTracker }
          if failAt = some 0 then some (s3, [], false)
          else some (s3, [StorageEvent.resizeFile restore], true)
      else some (s2, [], true)
    else none

/-- Source: `TransactionalMemory::new` on a fresh file, reduced to the
modelled fields: fresh region allocators via `init_new`
(`RegionHeaderMutator::initialize`), the tracker all-full then
`mark_free(max_order, i)` per region (`Allocators::new`), the region-tracker
page allocated directly out of region 0's buddy allocator at
`ceil_log2(tracker_pages)`, both header slots alike with transaction id 0,
empty log and allocated set, `read_from_secondary = false`. The layout is a
parameter (the source computes it from the requested sizes via the layout
calculator). -/
def engineInit (layout : List ℕ) (regionMaxPages : ℕ) (checksum : ChecksumTypeE)
    (trackerPages pageSize : ℕ) : Option EngineState :=
  let maxOrder := calculateUsableOrder regionMaxPages
  let regions := layout.map fun pages => BuddyAllocator.initNew pages regionMaxPages
  let tracker := (List.range layout.length).foldl
    (fun t i => trackerMarkFree t maxOrder i)
    (List.replicate (MAX_MAX_PAGE_ORDER + 1) (∅ : Finset ℕ))
  let requiredOrder := ceil_log2 trackerPages
  match (regions.getD 0 emptyBA).alloc requiredOrder with
  | none => none
  | some res =>
    let trackerPage : PageNumberE := ⟨0, res.1, requiredOrder⟩
    let slot : Slot := ⟨checksum, 0, none, none, layout, trackerPage⟩
    some { header := ⟨false, slot, slot, false⟩,
           regions := regions.set 0 res.2,
           tracker := tracker,
           layout := layout,
           trackerPage := trackerPage,
           allocatedSinceCommit := ∅,
           logSinceCommit := [],
           readFromSecondary := false,
           pageSize := pageSize,
           regionMaxPages := regionMaxPages }

/-- One engine operation of the claims' operation alphabet. -/
inductive EngineOp where
  | allocOp (size : ℕ)
  | freeDeferredOp (p : PageNumberE)
  | freeIfUncommittedOp (p : PageNumberE)
  | commitOp (dataRoot freedRoot : Option (PageNumberE × ℕ)) (txid : ℕ)
      (eventual : Bool) (newChecksum : Option ChecksumTypeE)
  | nonDurableCommitOp (dataRoot freedRoot : Option (PageNumberE × ℕ)) (txid : ℕ)
  | rollbackOpE
deriving DecidableEq

/-- Run one (successful, failure-free) engine operation. -/
def runOp (s : EngineState) : EngineOp → Option EngineState
  | .allocOp size => (allocate s size).map fun r => r.2
  | .freeDeferredOp p => freeDeferred s p
  | .freeIfUncommittedOp p => (freeIfUncommitted s p).map fun r => r.1
  | .commitOp dr fr tx ev nc =>
    match commit s dr fr tx ev nc none with
    | none => none
    | some r => some r.1
  | .nonDurableCommitOp dr fr tx => some (nonDurableCommit s dr fr tx none).1
  | .rollbackOpE =>
    match rollback s none with
    | none => none
    | some r => some r.1

def runOps : EngineState → List EngineOp → Option EngineState
  | s, [] => some s
  | s, op :: rest =>
    match runOp s op with
    | none => none
    | some s2 => runOps s2 rest

/-- Reachability by the claims' operation alphabet (failure-free runs). -/
inductive EngineReach (s0 : EngineState) : EngineState → Prop
  | refl : EngineReach s0 s0
  | step {s1 s2 op} : EngineReach s0 s1 → runOp s1 op = some s2 → EngineReach s0 s2

theorem runOps_reach {s : EngineState} :
    ∀ ops {s2 : EngineState}, runOps s ops = some s2 → EngineReach s s2 := by
  have main : ∀ ops (s1 s2 : EngineState), EngineReach s s1 → runOps s1 ops = some s2 →
      EngineReach s s2 := by
    intro ops
    induction ops with
    | nil =>
      intro s1 s2 hre h
      simp only [runOps] at h
      injection h with h2
      rw [← h2]
      exact hre
    | cons op rest ih =>
      intro s1 s2 hre h
      simp only [runOps] at h
      cases hop : runOp s1 op with
      | none => rw [hop] at h; exact absurd h (by simp)
      | some s3 =>
        rw [hop] at h
        exact ih s3 s2 (EngineReach.step hre hop) h
  intro ops s2 h
  exact main ops s s2 EngineReach.refl h

/-- The invariant asserted by claim C2: the tracker never under-claims
freedom — whenever some region's buddy allocator has a free block at an
order `≥ o`, the tracker bit `(o, region)` is clear. -/
def TrackerNotUnderClaiming (s : EngineState) : Prop :=
  ∀ r < s.regions.length, ∀ o < MAX_MAX_PAGE_ORDER + 1,
    (∃ o2 < (s.regions.getD r emptyBA).freeBits.length,
      o ≤ o2 ∧ (s.regions.getD r emptyBA).order o2 ≠ ∅) →
    r ∈ s.tracker.getD o ∅

def dummySlot : Slot := ⟨ChecksumTypeE.xxh3, 0, none, none, [], ⟨0, 0, 0⟩⟩

def dummyEngine : EngineState :=
  ⟨⟨false, dummySlot, dummySlot, false⟩, [], [], [], ⟨0, 0, 0⟩, ∅, [], false, 1, 16⟩

/-- The operation sequence refuting C2, on a fresh 2-region × 16-page store
with page size 1: exhaust region 0 at order 0 (15 one-page allocations);
free page 2 back (`free_if_uncommitted`); allocate two pages — the tracker
proposes region 0 at order 1, region 0 fails, so `mark_full(1, region 0)`
sets bits `(1.., 0)`, and the allocation lands in region 1; then free page 3
back — the buddies 2 and 3 merge to an order-1 free block in region 0, but
`mark_free(0, 0)` clears only bit `(0, 0)`, leaving `(1, 0)` set. -/
def c2Ops : List EngineOp :=
  List.replicate 15 (EngineOp.allocOp 1) ++
    [EngineOp.freeIfUncommittedOp ⟨0, 2, 0⟩, EngineOp.allocOp 2,
     EngineOp.freeIfUncommittedOp ⟨0, 3, 0⟩]

def c2Init : EngineState :=
  (engineInit [16, 16] 16 ChecksumTypeE.xxh3 1 1).getD dummyEngine

def c2Final : EngineState := (runOps c2Init c2Ops).getD dummyEngine

/-- **C2 (counterexample).** It is not true that in every engine state
reachable from a freshly initialized store by `allocate` / `free` /
`free_if_uncommitted` / `commit` / `non_durable_commit` / `rollback`
operations, the region tracker never under-claims freedom: buddy merging in
`free` / `free_if_uncommitted` can create a free block at an order whose
tracker bit was set by an earlier `mark_full`, and `mark_free(page_order, r)`
clears only orders `≤ page_order`. -/
theorem C2_counterexample :
    ¬ ∀ (layout : List ℕ) (rmp : ℕ) (ct : ChecksumTypeE) (tp ps : ℕ)
        (s0 s : EngineState),
      engineInit layout rmp ct tp ps = some s0 → EngineReach s0 s →
      TrackerNotUnderClaiming s := by
  intro h
  have h0 : engineInit [16, 16] 16 ChecksumTypeE.xxh3 1 1 = some c2Init := by decide
  have h1 : runOps c2Init c2Ops = some c2Final := by decide
  have h2 := h [16, 16] 16 ChecksumTypeE.xxh3 1 1 c2Init c2Final h0
    (runOps_reach c2Ops h1)
  have h3 : ¬ TrackerNotUnderClaiming c2Final := by
    unfold TrackerNotUnderClaiming
    decide
  exact h3 h2

theorem trackerMarkFree_getD_mem :
    ∀ (t : List (Finset ℕ)) (o r i : ℕ), i ≤ o → i < t.length →
      r ∈ (trackerMarkFree t o r).getD i ∅ := by
  intro t
  induction t with
  | nil =>
    intro o r i h1 h2
    simp at h2
  | cons s rest ih =>
    intro o r i h1 h2
    cases o with
    | zero =>
      have hi0 : i = 0 := by omega
      subst hi0
      simp [trackerMarkFree]
    | succ o2 =>
      cases i with
      | zero => simp [trackerMarkFree]
      | succ i2 =>
        show r ∈ (insert r s :: trackerMarkFree rest o2 r).getD (i2 + 1) ∅
        rw [List.getD_cons_succ]
        refine ih o2 r i2 (by omega) ?_
        simp only [List.length_cons] at h2
        omega

theorem bmFindFirstUnset_ne_none {s : Finset ℕ} {r : ℕ} (h : r ∈ s) :
    bmFindFirstUnset s ≠ none := by
  unfold bmFindFirstUnset
  rw [dif_pos ⟨r, h⟩]
  simp

/-- **C2 (amended).** What the marking discipline actually guarantees at the
freeing operations: when `free(p)` (deferred) or `free_if_uncommitted(p)`
(returning true) frees page `p`, the tracker is updated by
`mark_free(p.page_order, p.region)`, so for every order `o ≤ p.page_order`
the bit `(o, p.region)` is clear and `find_free(o)` can return a region;
free blocks that buddy merging creates at orders above `p.page_order` may
remain marked full (tracker under-claiming at those orders is possible, as
the counterexample shows). -/
theorem C2_amended (s : EngineState) (p : PageNumberE) :
    (∀ s2, freeDeferred s p = some s2 →
      s2.tracker = trackerMarkFree s.tracker p.pageOrder p.region ∧
      ∀ o ≤ p.pageOrder, o < s.tracker.length →
        p.region ∈ s2.tracker.getD o ∅ ∧ trackerFindFree s2.tracker o ≠ none) ∧
    (∀ s2, freeIfUncommitted s p = some (s2, true) →
      s2.tracker = trackerMarkFree s.tracker p.pageOrder p.region ∧
      ∀ o ≤ p.pageOrder, o < s.tracker.length →
        p.region ∈ s2.tracker.getD o ∅ ∧ trackerFindFree s2.tracker o ≠ none) := by
  have hlen : ∀ (t : List (Finset ℕ)) (o r : ℕ), (trackerMarkFree t o r).length = t.length := by
    intro t
    induction t with
    | nil => intro o r; rfl
    | cons sx rest ih =>
      intro o r
      cases o with
      | zero => rfl
      | succ o2 => simp [trackerMarkFree, ih o2 r]
  constructor
  · intro s2 h
    unfold freeDeferred at h
    cases hfr : (s.regions.getD p.region emptyBA).free p.pageIndex p.pageOrder with
    | none => rw [hfr] at h; exact absurd h (by simp)
    | some a2 =>
      rw [hfr] at h
      injection h with h2
      subst h2
      refine ⟨rfl, ?_⟩
      intro o ho holt
      have hmem : p.region ∈ (trackerMarkFree s.tracker p.pageOrder p.region).getD o ∅ :=
        trackerMarkFree_getD_mem s.tracker p.pageOrder p.region o ho holt
      exact ⟨hmem, bmFindFirstUnset_ne_none hmem⟩
  · intro s2 h
    unfold freeIfUncommitted at h
    by_cases hin : p ∈ s.allocatedSinceCommit
    · rw [if_pos hin] at h
      cases hfr : (s.regions.getD p.region emptyBA).free p.pageIndex p.pageOrder with
      | none => rw [hfr] at h; exact absurd h (by simp)
      | some a2 =>
        rw [hfr] at h
        injection h with h2
        have h3 := congrArg Prod.fst h2
        simp only at h3
        subst h3
        refine ⟨rfl, ?_⟩
        intro o ho holt
        have hmem : p.region ∈ (trackerMarkFree s.tracker p.pageOrder p.region).getD o ∅ :=
          trackerMarkFree_getD_mem s.tracker p.pageOrder p.region o ho holt
        exact ⟨hmem, bmFindFirstUnset_ne_none hmem⟩
    · rw [if_neg hin] at h
      injection h with h2
      have h3 := congrArg Prod.snd h2
      simp at h3

def c2wS : EngineState :=
  ⟨⟨false, dummySlot, dummySlot, false⟩, [⟨2, 4, [{1}, {1}, ∅]⟩], [∅, ∅], [4],
    ⟨0, 0, 0⟩, ∅, [], false, 1, 4⟩

def c2wS2 : EngineState :=
  ⟨⟨false, dummySlot, dummySlot, false⟩, [⟨2, 4, [∅, ∅, {0}]⟩], [{0}, ∅], [4],
    ⟨0, 0, 0⟩, ∅, [AllocationOp.freeOp ⟨0, 0, 0⟩], false, 1, 4⟩

theorem C2_witness :
    0 ∈ c2wS2.tracker.getD 0 ∅ ∧ trackerFindFree c2wS2.tracker 0 ≠ none :=
  ((C2_amended c2wS ⟨0, 0, 0⟩).1 c2wS2 (by decide)).2 0 le_rfl (by decide)

/-- The effective checksum type of a commit (`new_checksum_type.unwrap_or`
the primary slot's). -/
def commitCt (s : EngineState) (nc : Option ChecksumTypeE) : ChecksumTypeE :=
  nc.getD s.header.primarySlot.checksumType

/-- The header as written by `commit`: the secondary slot updated on the
post-shrink state `s1`. -/
def commitHeader (s s1 : EngineState) (dr fr : Option (PageNumberE × ℕ))
    (tx : ℕ) (nc : Option ChecksumTypeE) : HeaderE :=
  s1.header.setSecondary ⟨commitCt s nc, tx, dr, fr, s1.layout, s1.trackerPage⟩

/-- The complete storage-event sequence of a successful `commit`: header
write (primary bit unchanged), the intermediate flush exactly in the
two-phase (`Unused`) case, the header write with the primary bit flipped,
the final flush, and the file truncation when the layout shrank. -/
def commitEvents (h2 : HeaderE) (ct : ChecksumTypeE) (eventual shrunk : Bool)
    (layout : List ℕ) : List StorageEvent :=
  let flushEvent := if eventual then StorageEvent.eventualFlushEv else StorageEvent.flushEv
  [StorageEvent.writeHeader h2 false] ++
    (if ct = ChecksumTypeE.unused then [flushEvent] else []) ++
    [StorageEvent.writeHeader h2 true, flushEvent] ++
    (if shrunk then [StorageEvent.resizeFile layout] else [])

/-- Zero-based position of the final flush in `commitEvents`. -/
def finalFlushIdx (ct : ChecksumTypeE) : ℕ :=
  if ct = ChecksumTypeE.unused then 3 else 2

/-- `try_shrink` touches only the allocators and the in-progress layout. -/
theorem tryShrink_frame {s : EngineState} {shrunk : Bool} {s1 : EngineState}
    (h : tryShrink s = some (shrunk, s1)) :
    s1.header = s.header ∧ s1.logSinceCommit = s.logSinceCommit ∧
    s1.allocatedSinceCommit = s.allocatedSinceCommit ∧
    s1.readFromSecondary = s.readFromSecondary ∧
    s1.trackerPage = s.trackerPage ∧ s1.pageSize = s.pageSize ∧
    s1.regionMaxPages = s.regionMaxPages := by
  simp only [tryShrink] at h
  repeat' split at h
  all_goals
    first
      | (injection h with h2
         obtain ⟨h3, h4⟩ := Prod.mk.inj h2
         rw [← h4]
         exact ⟨rfl, rfl, rfl, rfl, rfl, rfl, rfl⟩)
      | exact absurd h (by simp)

/-- Full characterization of `commit`'s result: the post-shrink state `s1`
exists; on success the events are exactly `commitEvents` and the state is
swapped and cleared; on failure the events are a proper prefix, nothing is
cleared, and the in-memory primary bit is swapped exactly when the final
flush had completed. -/
theorem commitEvents_length (hh : HeaderE) (ct : ChecksumTypeE) (ev sh : Bool)
    (l : List ℕ) :
    (commitEvents hh ct ev sh l).length =
      3 + (if ct = ChecksumTypeE.unused then 1 else 0) + (if sh then 1 else 0) := by
  by_cases h1 : ct = ChecksumTypeE.unused <;> cases sh <;> simp [commitEvents, h1]

theorem commitEvents_length_ge (hh : HeaderE) (ct : ChecksumTypeE) (ev sh : Bool)
    (l : List ℕ) : 3 ≤ (commitEvents hh ct ev sh l).length := by
  rw [commitEvents_length]
  exact le_trans (Nat.le_add_right 3 _) (Nat.le_add_right _ _)

/-- Full characterization of `commit`'s result: the post-shrink state `s1`
exists; on success the events are exactly `commitEvents` and the state is
swapped and cleared; on failure the events are a proper prefix, nothing is
cleared, and the in-memory primary bit is swapped exactly when the final
flush had completed. -/
theorem commit_spec {s : EngineState} {dr fr : Option (PageNumberE × ℕ)} {tx : ℕ}
    {eventual : Bool} {nc : Option ChecksumTypeE} {failAt : Option ℕ}
    {s2 : EngineState} {evs : List StorageEvent} {ok : Bool}
    (h : commit s dr fr tx eventual nc failAt = some (s2, evs, ok)) :
    ∃ shrunk s1, tryShrink s = some (shrunk, s1) ∧
      (ok = true →
        evs = commitEvents (commitHeader s s1 dr fr tx nc) (commitCt s nc)
          eventual shrunk s1.layout ∧
        s2.header = (commitHeader s s1 dr fr tx nc).swapPrimary ∧
        s2.logSinceCommit = [] ∧ s2.allocatedSinceCommit = ∅ ∧
        s2.readFromSecondary = false ∧ s2.regions = s1.regions ∧
        s2.tracker = s1.tracker ∧ s2.layout = s1.layout) ∧
      (ok = false →
        ∃ k, k < (commitEvents (commitHeader s s1 dr fr tx nc) (commitCt s nc)
            eventual shrunk s1.layout).length ∧
          evs = (commitEvents (commitHeader s s1 dr fr tx nc) (commitCt s nc)
            eventual shrunk s1.layout).take k ∧
          s2.logSinceCommit = s.logSinceCommit ∧
          s2.allocatedSinceCommit = s.allocatedSinceCommit ∧
          s2.readFromSecondary = s.readFromSecondary ∧
          (k ≤ finalFlushIdx (commitCt s nc) →
            s2.header.primaryBit = s.header.primaryBit) ∧
          (finalFlushIdx (commitCt s nc) < k →
            s2.header.primaryBit = (!s.header.primaryBit))) := by
  simp only [commit] at h
  cases hts : tryShrink s with
  | none => rw [hts] at h; exact absurd h (by simp)
  | some ts =>
    obtain ⟨shrunk, s1⟩ := ts
    rw [hts] at h
    simp only [] at h
    obtain ⟨hhd, hlog, halloc, hrfs, htp, -, -⟩ := tryShrink_frame hts
    refine ⟨shrunk, s1, rfl, ?_⟩
    by_cases hf0 : failAt = some 0
    · rw [if_pos hf0] at h
      injection h with h2
      obtain ⟨hA, hB⟩ := Prod.mk.inj h2
      obtain ⟨hC, hD⟩ := Prod.mk.inj hB
      refine ⟨fun hok => absurd (hD.trans hok) (by simp), fun _ => ?_⟩
      refine ⟨0, ?_, by rw [← hC, List.take_zero], ?_, ?_, ?_, ?_, ?_⟩
      · exact lt_of_lt_of_le (by norm_num) (commitEvents_length_ge _ _ _ _ _)
      · rw [← hA]; exact hlog
      · rw [← hA]; exact halloc
      · rw [← hA]; exact hrfs
      · intro hk
        rw [← hA]
        show ((s1.header.setSecondary _).primaryBit) = s.header.primaryBit
        rw [HeaderE.primaryBit_setSecondary, hhd]
      · intro hk
        simp only [finalFlushIdx] at hk
        rcases em (commitCt s nc = ChecksumTypeE.unused) with hc | hc
        · rw [if_pos hc] at hk; omega
        · rw [if_neg hc] at hk; omega
    · rw [if_neg hf0] at h
      by_cases hct : nc.getD s.header.primarySlot.checksumType = ChecksumTypeE.unused
      · rw [if_pos hct] at h
        by_cases hf1 : failAt = some 1
        · rw [if_pos hf1] at h
          injection h with h2
          obtain ⟨hA, hB⟩ := Prod.mk.inj h2
          obtain ⟨hC, hD⟩ := Prod.mk.inj hB
          refine ⟨fun hok => absurd (hD.trans hok) (by simp), fun _ => ?_⟩
          refine ⟨1, ?_, ?_, ?_, ?_, ?_, ?_, ?_⟩
          · cases shrunk <;> simp [commitEvents_length, commitCt, hct]
          · rw [← hC]
            simp [commitEvents, commitHeader, commitCt, hct, hhd]
          · rw [← hA]; exact hlog
          · rw [← hA]; exact halloc
          · rw [← hA]; exact hrfs
          · intro hk
            rw [← hA]
            show ((s1.header.setSecondary _).primaryBit) = s.header.primaryBit
            rw [HeaderE.primaryBit_setSecondary, hhd]
          · intro hk
            simp [finalFlushIdx, commitCt, hct] at hk
        · rw [if_neg hf1] at h
          by_cases hf2 : failAt = some 2
          · rw [if_pos hf2] at h
            injection h with h2
            obtain ⟨hA, hB⟩ := Prod.mk.inj h2
            obtain ⟨hC, hD⟩ := Prod.mk.inj hB
            refine ⟨fun hok => absurd (hD.trans hok) (by simp), fun _ => ?_⟩
            refine ⟨2, ?_, ?_, ?_, ?_, ?_, ?_, ?_⟩
            · cases shrunk <;> simp [commitEvents_length, commitCt, hct]
            · rw [← hC]
              simp [commitEvents, commitHeader, commitCt, hct, hhd]
            · rw [← hA]; exact hlog
            · rw [← hA]; exact halloc
            · rw [← hA]; exact hrfs
            · intro hk
              rw [← hA]
              show ((s1.header.setSecondary _).primaryBit) = s.header.primaryBit
              rw [HeaderE.primaryBit_setSecondary, hhd]
            · intro hk
              simp [finalFlushIdx, commitCt, hct] at hk
          · rw [if_neg hf2] at h
            by_cases hf3 : failAt = some 3
            · rw [if_pos hf3] at h
              injection h with h2
              obtain ⟨hA, hB⟩ := Prod.mk.inj h2
              obtain ⟨hC, hD⟩ := Prod.mk.inj hB
              refine ⟨fun hok => absurd (hD.trans hok) (by simp), fun _ => ?_⟩
              refine ⟨3, ?_, ?_, ?_, ?_, ?_, ?_, ?_⟩
              · cases shrunk <;> simp [commitEvents_length, commitCt, hct]
              · rw [← hC]
                simp [commitEvents, commitHeader, commitCt, hct, hhd]
              · rw [← hA]; exact hlog
              · rw [← hA]; exact halloc
              · rw [← hA]; exact hrfs
              · intro hk
                rw [← hA]
                show ((s1.header.setSecondary _).primaryBit) = s.header.primaryBit
                rw [HeaderE.primaryBit_setSecondary, hhd]
              · intro hk
                simp [finalFlushIdx, commitCt, hct] at hk
            · rw [if_neg hf3] at h
              by_cases hsh : shrunk = true
              · rw [if_pos hsh] at h
                by_cases hf4 : failAt = some 4
                · rw [if_pos hf4] at h
                  injection h with h2
                  obtain ⟨hA, hB⟩ := Prod.mk.inj h2
                  obtain ⟨hC, hD⟩ := Prod.mk.inj hB
                  refine ⟨fun hok => absurd (hD.trans hok) (by simp), fun _ => ?_⟩
                  refine ⟨4, ?_, ?_, ?_, ?_, ?_, ?_, ?_⟩
                  · simp [commitEvents_length, commitCt, hct, hsh]
                  · rw [← hC]
                    simp [commitEvents, commitHeader, commitCt, hct, hhd, hsh]
                  · rw [← hA]; exact hlog
                  · rw [← hA]; exact halloc
                  · rw [← hA]; exact hrfs
                  · intro hk
                    simp [finalFlushIdx, commitCt, hct] at hk
                  · intro hk
                    rw [← hA]
                    show (!(s1.header.setSecondary _).primaryBit) = _
                    rw [HeaderE.primaryBit_setSecondary, hhd]
                · rw [if_neg hf4] at h
                  injection h with h2
                  obtain ⟨hA, hB⟩ := Prod.mk.inj h2
                  obtain ⟨hC, hD⟩ := Prod.mk.inj hB
                  refine ⟨fun _ => ?_, fun hok => absurd (hD.trans hok) (by simp)⟩
                  rw [← hA, ← hC]
                  refine ⟨?_, rfl, rfl, rfl, rfl, rfl, rfl, rfl⟩
                  simp [commitEvents, commitHeader, commitCt, hct, hhd, hsh]
              · rw [if_neg hsh] at h
                injection h with h2
                obtain ⟨hA, hB⟩ := Prod.mk.inj h2
                obtain ⟨hC, hD⟩ := Prod.mk.inj hB
                refine ⟨fun _ => ?_, fun hok => absurd (hD.trans hok) (by simp)⟩
                rw [← hA, ← hC]
                refine ⟨?_, rfl, rfl, rfl, rfl, rfl, rfl, rfl⟩
                simp [commitEvents, commitHeader, commitCt, hct, hhd, hsh]
      · rw [if_neg hct] at h
        by_cases hf1 : failAt = some 1
        · rw [if_pos hf1] at h
          injection h with h2
          obtain ⟨hA, hB⟩ := Prod.mk.inj h2
          obtain ⟨hC, hD⟩ := Prod.mk.inj hB
          refine ⟨fun hok => absurd (hD.trans hok) (by simp), fun _ => ?_⟩
          refine ⟨1, ?_, ?_, ?_, ?_, ?_, ?_, ?_⟩
          · cases shrunk <;> simp [commitEvents_length, commitCt, hct]
          · rw [← hC]
            simp [commitEvents, commitHeader, commitCt, hct, hhd]
          · rw [← hA]; exact hlog
          · rw [← hA]; exact halloc
          · rw [← hA]; exact hrfs
          · intro hk
            rw [← hA]
            show ((s1.header.setSecondary _).primaryBit) = s.header.primaryBit
            rw [HeaderE.primaryBit_setSecondary, hhd]
          · intro hk
            simp [finalFlushIdx, commitCt, hct] at hk
        · rw [if_neg hf1] at h
          by_cases hf2 : failAt = some 2
          · rw [if_pos hf2] at h
            injection h with h2
            obtain ⟨hA, hB⟩ := Prod.mk.inj h2
            obtain ⟨hC, hD⟩ := Prod.mk.inj hB
            refine ⟨fun hok => absurd (hD.trans hok) (by simp), fun _ => ?_⟩
            refine ⟨2, ?_, ?_, ?_, ?_, ?_, ?_, ?_⟩
            · cases shrunk <;> simp [commitEvents_length, commitCt, hct]
            · rw [← hC]
              simp [commitEvents, commitHeader, commitCt, hct, hhd]
            · rw [← hA]; exact hlog
            · rw [← hA]; exact halloc
            · rw [← hA]; exact hrfs
            · intro hk
              rw [← hA]
              show ((s1.header.setSecondary _).primaryBit) = s.header.primaryBit
              rw [HeaderE.primaryBit_setSecondary, hhd]
            · intro hk
              simp [finalFlushIdx, commitCt, hct] at hk
          · rw [if_neg hf2] at h
            by_cases hsh : shrunk = true
            · rw [if_pos hsh] at h
              by_cases hf3 : failAt = some 3
              · rw [if_pos hf3] at h
                injection h with h2
                obtain ⟨hA, hB⟩ := Prod.mk.inj h2
                obtain ⟨hC, hD⟩ := Prod.mk.inj hB
                refine ⟨fun hok => absurd (hD.trans hok) (by simp), fun _ => ?_⟩
                refine ⟨3, ?_, ?_, ?_, ?_, ?_, ?_, ?_⟩
                · simp [commitEvents_length, commitCt, hct, hsh]
                · rw [← hC]
                  simp [commitEvents, commitHeader, commitCt, hct, hhd, hsh]
                · rw [← hA]; exact hlog
                · rw [← hA]; exact halloc
                · rw [← hA]; exact hrfs
                · intro hk
                  simp [finalFlushIdx, commitCt, hct] at hk
                · intro hk
                  rw [← hA]
                  show (!(s1.header.setSecondary _).primaryBit) = _
                  rw [HeaderE.primaryBit_setSecondary, hhd]
              · rw [if_neg hf3] at h
                injection h with h2
                obtain ⟨hA, hB⟩ := Prod.mk.inj h2
                obtain ⟨hC, hD⟩ := Prod.mk.inj hB
                refine ⟨fun _ => ?_, fun hok => absurd (hD.trans hok) (by simp)⟩
                rw [← hA, ← hC]
                refine ⟨?_, rfl, rfl, rfl, rfl, rfl, rfl, rfl⟩
                simp [commitEvents, commitHeader, commitCt, hct, hhd, hsh]
            · rw [if_neg hsh] at h
              injection h with h2
              obtain ⟨hA, hB⟩ := Prod.mk.inj h2
              obtain ⟨hC, hD⟩ := Prod.mk.inj hB
              refine ⟨fun _ => ?_, fun hok => absurd (hD.trans hok) (by simp)⟩
              rw [← hA, ← hC]
              refine ⟨?_, rfl, rfl, rfl, rfl, rfl, rfl, rfl⟩
              simp [commitEvents, commitHeader, commitCt, hct, hhd, hsh]

/-- **C1.** For every call to `commit(data_root, freed_root, transaction_id,
eventual, new_checksum_type)` the storage operations occur in this order:
a header write carrying the updated secondary slot with the primary bit
unchanged; exactly when the effective checksum type is `Unused` (two-phase)
an intermediate flush (eventual or full per the flag); a header write with
the primary bit flipped; a flush; and the in-memory primary bit is swapped
and `log_since_commit`, `allocated_since_commit`, `read_from_secondary` are
cleared only after that final flush succeeds (on failure the events are a
prefix, nothing is cleared, and the bit is swapped only if the final flush
had completed). When checksums are active the intermediate flush is
skipped. -/
theorem C1_commit_protocol (s : EngineState) (dr fr : Option (PageNumberE × ℕ))
    (tx : ℕ) (eventual : Bool) (nc : Option ChecksumTypeE) (failAt : Option ℕ)
    (s2 : EngineState) (evs : List StorageEvent) (ok : Bool)
    (h : commit s dr fr tx eventual nc failAt = some (s2, evs, ok)) :
    ∃ shrunk s1, tryShrink s = some (shrunk, s1) ∧
      (ok = true →
        evs = commitEvents (commitHeader s s1 dr fr tx nc) (commitCt s nc)
          eventual shrunk s1.layout ∧
        s2.header = (commitHeader s s1 dr fr tx nc).swapPrimary ∧
        s2.logSinceCommit = [] ∧ s2.allocatedSinceCommit = ∅ ∧
        s2.readFromSecondary = false ∧ s2.regions = s1.regions ∧
        s2.tracker = s1.tracker ∧ s2.layout = s1.layout) ∧
      (ok = false →
        ∃ k, k < (commitEvents (commitHeader s s1 dr fr tx nc) (commitCt s nc)
            eventual shrunk s1.layout).length ∧
          evs = (commitEvents (commitHeader s s1 dr fr tx nc) (commitCt s nc)
            eventual shrunk s1.layout).take k ∧
          s2.logSinceCommit = s.logSinceCommit ∧
          s2.allocatedSinceCommit = s.allocatedSinceCommit ∧
          s2.readFromSecondary = s.readFromSecondary ∧
          (k ≤ finalFlushIdx (commitCt s nc) →
            s2.header.primaryBit = s.header.primaryBit) ∧
          (finalFlushIdx (commitCt s nc) < k →
            s2.header.primaryBit = (!s.header.primaryBit))) :=
  commit_spec h

def c1wS : EngineState :=
  ⟨⟨false, dummySlot, dummySlot, false⟩, [⟨2, 4, [∅, ∅, ∅]⟩], [∅, ∅], [4],
    ⟨0, 0, 0⟩, ∅, [], false, 1, 4⟩

def c1wS2 : EngineState :=
  ⟨⟨true, dummySlot, ⟨ChecksumTypeE.xxh3, 1, none, none, [4], ⟨0, 0, 0⟩⟩, false⟩,
    [⟨2, 4, [∅, ∅, ∅]⟩], [∅, ∅], [4], ⟨0, 0, 0⟩, ∅, [], false, 1, 4⟩

def c1wEvs : List StorageEvent :=
  [StorageEvent.writeHeader
      ⟨false, dummySlot, ⟨ChecksumTypeE.xxh3, 1, none, none, [4], ⟨0, 0, 0⟩⟩, false⟩ false,
   StorageEvent.writeHeader
      ⟨false, dummySlot, ⟨ChecksumTypeE.xxh3, 1, none, none, [4], ⟨0, 0, 0⟩⟩, false⟩ true,
   StorageEvent.flushEv]

theorem C1_witness :
    ∃ shrunk s1, tryShrink c1wS = some (shrunk, s1) ∧
      (true = true →
        c1wEvs = commitEvents (commitHeader c1wS s1 none none 1 none)
          (commitCt c1wS none) false shrunk s1.layout ∧
        c1wS2.header = (commitHeader c1wS s1 none none 1 none).swapPrimary ∧
        c1wS2.logSinceCommit = [] ∧ c1wS2.allocatedSinceCommit = ∅ ∧
        c1wS2.readFromSecondary = false ∧ c1wS2.regions = s1.regions ∧
        c1wS2.tracker = s1.tracker ∧ c1wS2.layout = s1.layout) ∧
      (true = false →
        ∃ k, k < (commitEvents (commitHeader c1wS s1 none none 1 none)
            (commitCt c1wS none) false shrunk s1.layout).length ∧
          c1wEvs = (commitEvents (commitHeader c1wS s1 none none 1 none)
            (commitCt c1wS none) false shrunk s1.layout).take k ∧
          c1wS2.logSinceCommit = c1wS.logSinceCommit ∧
          c1wS2.allocatedSinceCommit = c1wS.allocatedSinceCommit ∧
          c1wS2.readFromSecondary = c1wS.readFromSecondary ∧
          (k ≤ finalFlushIdx (commitCt c1wS none) →
            c1wS2.header.primaryBit = c1wS.header.primaryBit) ∧
          (finalFlushIdx (commitCt c1wS none) < k →
            c1wS2.header.primaryBit = (!c1wS.header.primaryBit))) :=
  C1_commit_protocol c1wS none none 1 false none none c1wS2 c1wEvs true (by decide)

/-- **C7.** `free_if_uncommitted(p)` returns true iff `p` is in
`allocated_since_commit`; when true it removes `p` from the set, frees `p` in
the region allocator, marks the region free in the tracker, and logs
`FreeUncommitted`; when false it changes nothing. Membership in
`allocated_since_commit` means exactly "allocated by `allocate` in the
current transaction": `allocate` inserts the page, and (successful) `commit`,
`non_durable_commit` and `rollback_uncommitted_writes` clear the set. -/
theorem C7_freeIfUncommitted_spec (s : EngineState) (p : PageNumberE) :
    (∀ s2 b, freeIfUncommitted s p = some (s2, b) →
      (b = true ↔ p ∈ s.allocatedSinceCommit)) ∧
    (p ∉ s.allocatedSinceCommit → freeIfUncommitted s p = some (s, false)) ∧
    (∀ s2, freeIfUncommitted s p = some (s2, true) →
      s2.allocatedSinceCommit = s.allocatedSinceCommit.erase p ∧
      (∃ a2, (s.regions.getD p.region emptyBA).free p.pageIndex p.pageOrder = some a2 ∧
        s2.regions = s.regions.set p.region a2) ∧
      s2.tracker = trackerMarkFree s.tracker p.pageOrder p.region ∧
      s2.logSinceCommit = s.logSinceCommit ++ [AllocationOp.freeUncommittedOp p] ∧
      s2.header = s.header ∧ s2.layout = s.layout ∧
      s2.readFromSecondary = s.readFromSecondary) ∧
    (∀ sz q s3, allocate s sz = some (q, s3) →
      s3.allocatedSinceCommit = insert q s.allocatedSinceCommit) ∧
    (∀ dr fr tx ev nc fa s3 evs,
      commit s dr fr tx ev nc fa = some (s3, evs, true) →
      s3.allocatedSinceCommit = ∅) ∧
    (∀ dr fr tx fa, (nonDurableCommit s dr fr tx fa).1.allocatedSinceCommit = ∅) ∧
    (∀ fa s3 evs ok, rollback s fa = some (s3, evs, ok) →
      s3.allocatedSinceCommit = ∅) := by
  refine ⟨?_, ?_, ?_, ?_, ?_, ?_, ?_⟩
  · intro s2 b h
    unfold freeIfUncommitted at h
    by_cases hin : p ∈ s.allocatedSinceCommit
    · rw [if_pos hin] at h
      cases hfr : (s.regions.getD p.region emptyBA).free p.pageIndex p.pageOrder with
      | none => rw [hfr] at h; exact absurd h (by simp)
      | some a2 =>
        rw [hfr] at h
        injection h with h2
        obtain ⟨-, hb⟩ := Prod.mk.inj h2
        rw [← hb]
        simp [hin]
    · rw [if_neg hin] at h
      injection h with h2
      obtain ⟨-, hb⟩ := Prod.mk.inj h2
      rw [← hb]
      simp [hin]
  · intro hnin
    unfold freeIfUncommitted
    rw [if_neg hnin]
  · intro s2 h
    unfold freeIfUncommitted at h
    by_cases hin : p ∈ s.allocatedSinceCommit
    · rw [if_pos hin] at h
      cases hfr : (s.regions.getD p.region emptyBA).free p.pageIndex p.pageOrder with
      | none => rw [hfr] at h; exact absurd h (by simp)
      | some a2 =>
        rw [hfr] at h
        injection h with h2
        obtain ⟨hA, -⟩ := Prod.mk.inj h2
        rw [← hA]
        exact ⟨rfl, ⟨a2, rfl, rfl⟩, rfl, rfl, rfl, rfl, rfl⟩
    · rw [if_neg hin] at h
      injection h with h2
      obtain ⟨-, hb⟩ := Prod.mk.inj h2
      exact absurd hb (by simp)
  · intro sz q s3 h
    simp only [allocate] at h
    cases hah : allocateHelper (NUM_REGIONS + 1) s.regions s.tracker
        (ceil_log2 ((sz + s.pageSize - 1) / s.pageSize)) with
    | none => rw [hah] at h; exact absurd h (by simp)
    | some res =>
      rw [hah] at h
      injection h with h2
      obtain ⟨hq, hs3⟩ := Prod.mk.inj h2
      rw [← hs3, ← hq]
  · intro dr fr tx ev nc fa s3 evs h
    obtain ⟨sh, s1, -, hsucc, -⟩ := commit_spec h
    exact (hsucc rfl).2.2.2.1
  · intro dr fr tx fa
    unfold nonDurableCommit
    by_cases hf : fa = some 0
    · rw [if_pos hf]
    · rw [if_neg hf]
  · intro fa s3 evs ok h
    simp only [rollback] at h
    repeat' split at h
    all_goals
      first
        | (injection h with h2
           obtain ⟨hA, -⟩ := Prod.mk.inj h2
           rw [← hA])
        | exact absurd h (by simp)

theorem C7_witness :
    freeIfUncommitted dummyEngine ⟨0, 0, 0⟩ = some (dummyEngine, false) :=
  (C7_freeIfUncommitted_spec dummyEngine ⟨0, 0, 0⟩).2.1 (by decide)

/-- **C10.** `non_durable_commit` clears both `log_since_commit` and
`allocated_since_commit`, updates the in-memory secondary slot and sets
`read_from_secondary`; it touches no allocator state. Consequently every
later `free_if_uncommitted` on a page allocated before it returns `false`
(the set is empty), and an immediate `rollback_uncommitted_writes` has
nothing to undo: it returns leaving the state — in particular all allocator
state from before the non-durable commit — intact. -/
theorem C10_nonDurable_frame (s : EngineState) (dr fr : Option (PageNumberE × ℕ))
    (tx : ℕ) (s2 : EngineState) (evs : List StorageEvent) (ok : Bool)
    (h : nonDurableCommit s dr fr tx none = (s2, evs, ok)) :
    ok = true ∧ evs = [StorageEvent.writeBarrierEv] ∧
    s2.logSinceCommit = [] ∧ s2.allocatedSinceCommit = ∅ ∧
    s2.readFromSecondary = true ∧
    s2.header = s.header.setSecondary
      ⟨s.header.primarySlot.checksumType, tx, dr, fr, s.layout, s.trackerPage⟩ ∧
    s2.regions = s.regions ∧ s2.tracker = s.tracker ∧ s2.layout = s.layout ∧
    (∀ p, freeIfUncommitted s2 p = some (s2, false)) ∧
    rollback s2 none = some (s2, [], true) := by
  simp only [nonDurableCommit] at h
  rw [if_neg (by simp : ¬((none : Option ℕ) = some 0))] at h
  obtain ⟨hA, hB⟩ := Prod.mk.inj h
  obtain ⟨hC, hD⟩ := Prod.mk.inj hB
  subst hA
  subst hC
  subst hD
  refine ⟨rfl, rfl, rfl, rfl, rfl, rfl, rfl, rfl, rfl, ?_, ?_⟩
  · intro p
    unfold freeIfUncommitted
    rw [if_neg (by simp)]
  · simp [rollback, rollbackOps, HeaderE.secondarySlot_setSecondary]

theorem C10_witness :
    rollback
      (⟨⟨false, dummySlot, ⟨ChecksumTypeE.xxh3, 5, none, none, [], ⟨0, 0, 0⟩⟩, false⟩,
        [], [], [], ⟨0, 0, 0⟩, ∅, [], true, 1, 16⟩ : EngineState) none =
    some (⟨⟨false, dummySlot, ⟨ChecksumTypeE.xxh3, 5, none, none, [], ⟨0, 0, 0⟩⟩, false⟩,
        [], [], [], ⟨0, 0, 0⟩, ∅, [], true, 1, 16⟩, [], true) :=
  (C10_nonDurable_frame dummyEngine none none 5
      ⟨⟨false, dummySlot, ⟨ChecksumTypeE.xxh3, 5, none, none, [], ⟨0, 0, 0⟩⟩, false⟩,
        [], [], [], ⟨0, 0, 0⟩, ∅, [], true, 1, 16⟩
      [StorageEvent.writeBarrierEv] true
      (by decide)).2.2.2.2.2.2.2.2.2.2

/-- **C8.** On a well-formed layout (all regions full except a last region of
`n ≥ MIN_USABLE_PAGES` pages matching its allocator's length), `try_shrink`
returns false exactly when the last region's trailing-free pages `tf`
satisfy `tf < n / 2` (leaving everything unchanged); when it shrinks, the
new layout drops the trailing region when there is more than one region and
`tf = n`, and otherwise resizes it to `max(MIN_USABLE_PAGES, n - tf / 2)`
pages. -/
theorem C8_tryShrink_spec (s : EngineState) (L : List ℕ) (n : ℕ)
    (hlay : s.layout = L ++ [n])
    (hfull : ∀ x ∈ L, x = s.regionMaxPages)
    (hreg : (s.regions.getD L.length emptyBA).len = n)
    (hmin : MIN_USABLE_PAGES ≤ n) (hnF : n ≤ s.regionMaxPages)
    (hF : 0 < s.regionMaxPages) :
    ((s.regions.getD L.length emptyBA).trailingFreePages < n / 2 →
      tryShrink s = some (false, s)) ∧
    (∀ shrunk s1, tryShrink s = some (shrunk, s1) →
      ¬ (s.regions.getD L.length emptyBA).trailingFreePages < n / 2 →
      shrunk = true ∧
      (1 < s.layout.length ∧
          (s.regions.getD L.length emptyBA).trailingFreePages = n →
        s1.layout = L) ∧
      (¬ (1 < s.layout.length ∧
          (s.regions.getD L.length emptyBA).trailingFreePages = n) →
        s1.layout = L ++
          [max MIN_USABLE_PAGES
            (n - (s.regions.getD L.length emptyBA).trailingFreePages / 2)])) := by
  have hidx : s.layout.length - 1 = L.length := by
    rw [hlay]
    simp
  have hlast2 : s.layout.getD L.length 0 = n := by
    rw [hlay, List.getD_eq_getElem?_getD, List.getElem?_concat_length]
    rfl
  have hrepl : L = List.replicate L.length s.regionMaxPages :=
    List.eq_replicate_length.mpr hfull
  have htot : layoutTotal s.layout = L.length * s.regionMaxPages + n := by
    rw [hlay]
    show (L ++ [n]).sum = _
    rw [List.sum_append, hrepl, List.sum_replicate, smul_eq_mul]
    simp
  have hMIN : MIN_USABLE_PAGES = 10 := rfl
  constructor
  · intro hlt
    simp only [tryShrink]
    rw [hidx, hreg, if_pos hlt]
  · intro shrunk s1 h hge
    simp only [tryShrink] at h
    rw [hidx, hreg, hlast2] at h
    rw [if_neg hge] at h
    rw [htot] at h
    by_cases hcond : 1 < s.layout.length ∧
        (s.regions.getD L.length emptyBA).trailingFreePages = n
    · rw [if_pos hcond, if_pos rfl] at h
      have hA1 : L.length * s.regionMaxPages + n - n = L.length * s.regionMaxPages := by
        omega
      rw [hA1] at h
      have hcalc : layoutCalculate (L.length * s.regionMaxPages) s.regionMaxPages = L := by
        unfold layoutCalculate
        have h0 : L.length * s.regionMaxPages % s.regionMaxPages = 0 :=
          Nat.mul_mod_left _ _
        have h1 : L.length * s.regionMaxPages / s.regionMaxPages = L.length := by
          rw [Nat.mul_div_assoc _ dvd_rfl, Nat.div_self hF, mul_one]
        rw [h0, if_pos rfl, h1]
        exact hrepl.symm
      rw [hcalc] at h
      split at h
      · exact absurd h (by simp)
      · split at h
        · injection h with h2
          obtain ⟨hsh, hs1⟩ := Prod.mk.inj h2
          refine ⟨hsh.symm, fun _ => ?_, fun hc => absurd hcond hc⟩
          rw [← hs1]
        · exact absurd h (by simp)
    · rw [if_neg hcond] at h
      have hm0 : ¬ (max MIN_USABLE_PAGES
          (n - (s.regions.getD L.length emptyBA).trailingFreePages / 2) = 0) := by
        have h1 := Nat.le_max_left MIN_USABLE_PAGES
          (n - (s.regions.getD L.length emptyBA).trailingFreePages / 2)
        omega
      rw [if_neg hm0] at h
      have hm_le : max MIN_USABLE_PAGES
          (n - (s.regions.getD L.length emptyBA).trailingFreePages / 2) ≤ n :=
        max_le hmin (Nat.sub_le _ _)
      have hB1 : L.length * s.regionMaxPages + n -
          (n - max MIN_USABLE_PAGES
            (n - (s.regions.getD L.length emptyBA).trailingFreePages / 2)) =
          L.length * s.regionMaxPages + max MIN_USABLE_PAGES
            (n - (s.regions.getD L.length emptyBA).trailingFreePages / 2) := by
        omega
      rw [hB1] at h
      have hcalcB : layoutCalculate (L.length * s.regionMaxPages +
          max MIN_USABLE_PAGES
            (n - (s.regions.getD L.length emptyBA).trailingFreePages / 2))
          s.regionMaxPages = L ++
          [max MIN_USABLE_PAGES
            (n - (s.regions.getD L.length emptyBA).trailingFreePages / 2)] := by
        have hmF : max MIN_USABLE_PAGES
            (n - (s.regions.getD L.length emptyBA).trailingFreePages / 2) ≤
            s.regionMaxPages := le_trans hm_le hnF
        unfold layoutCalculate
        by_cases heq : max MIN_USABLE_PAGES
            (n - (s.regions.getD L.length emptyBA).trailingFreePages / 2) =
            s.regionMaxPages
        · rw [heq]
          have he1 : L.length * s.regionMaxPages + s.regionMaxPages =
              (L.length + 1) * s.regionMaxPages := by ring
          have h0 : (L.length + 1) * s.regionMaxPages % s.regionMaxPages = 0 :=
            Nat.mul_mod_left _ _
          have h1 : (L.length + 1) * s.regionMaxPages / s.regionMaxPages =
              L.length + 1 := by
            rw [Nat.mul_div_assoc _ dvd_rfl, Nat.div_self hF, mul_one]
          rw [he1, h0, if_pos rfl, h1, List.replicate_succ']
          rw [← hrepl]
        · have hlt2 : max MIN_USABLE_PAGES
              (n - (s.regions.getD L.length emptyBA).trailingFreePages / 2) <
              s.regionMaxPages := lt_of_le_of_ne hmF heq
          have he1 : L.length * s.regionMaxPages + max MIN_USABLE_PAGES
              (n - (s.regions.getD L.length emptyBA).trailingFreePages / 2) =
              s.regionMaxPages * L.length + max MIN_USABLE_PAGES
              (n - (s.regions.getD L.length emptyBA).trailingFreePages / 2) := by
            ring
          have h0 : (s.regionMaxPages * L.length + max MIN_USABLE_PAGES
              (n - (s.regions.getD L.length emptyBA).trailingFreePages / 2)) %
              s.regionMaxPages = max MIN_USABLE_PAGES
              (n - (s.regions.getD L.length emptyBA).trailingFreePages / 2) := by
            rw [Nat.mul_add_mod]
            exact Nat.mod_eq_of_lt hlt2
          have h1 : (s.regionMaxPages * L.length + max MIN_USABLE_PAGES
              (n - (s.regions.getD L.length emptyBA).trailingFreePages / 2)) /
              s.regionMaxPages = L.length := by
            rw [Nat.mul_add_div hF, Nat.div_eq_of_lt hlt2]
            omega
          rw [he1, h0, if_neg hm0, h1]
          rw [← hrepl]
      rw [hcalcB] at h
      split at h
      · exact absurd h (by simp)
      · split at h
        · injection h with h2
          obtain ⟨hsh, hs1⟩ := Prod.mk.inj h2
          refine ⟨hsh.symm, fun hc => absurd hc hcond, fun _ => ?_⟩
          rw [← hs1]
        · exact absurd h (by simp)

def c8wS : EngineState :=
  ⟨⟨false, dummySlot, dummySlot, false⟩, [BuddyAllocator.initNew 16 16],
    List.replicate 21 ∅, [16], ⟨0, 0, 0⟩, ∅, [], false, 1, 16⟩

def c8wS1 : EngineState :=
  ⟨⟨false, dummySlot, dummySlot, false⟩, [⟨4, 10, [∅, {4}, ∅, {0}, ∅]⟩],
    List.replicate 21 ∅, [10], ⟨0, 0, 0⟩, ∅, [], false, 1, 16⟩

theorem C8_witness :
    c8wS1.layout = ([] : List ℕ) ++
      [max MIN_USABLE_PAGES
        (16 - (c8wS.regions.getD ([] : List ℕ).length emptyBA).trailingFreePages / 2)] :=
  ((C8_tryShrink_spec c8wS [] 16 rfl (by simp) (by decide) (by decide) (by decide)
      (by decide)).2 true c8wS1 (by decide) (by decide)).2.2 (by decide)

end Engine

/-! ### The multimap overlay (`multimap_table.rs`)

Values are modelled as naturals ordered by `<` (the source keeps leaf pairs
in `RedbKey` order and they are distinct). The B-tree collaborators
(`LeafAccessor`, `RawLeafBuilder`, `BtreeMut` — their sources are not in the
provided `src/`) enter through an environment: the encoded length of a value,
`RawLeafBuilder::required_bytes(num_pairs, pair_bytes)`, and an oracle that
tells whether the nested tree's root page is a leaf (`page.memory()[0] ==
LEAF`) as a function of the stored value list — every theorem below holds
for an arbitrary such environment. -/

namespace Multimap

/-- Modelled from the spec: the B-tree collaborator contract of §4.6 —
page size, value encoding length, leaf `required_bytes`, and the root-kind
of the nested tree for a given value list. -/
structure MMEnv where
  pageSize : ℕ
  vlen : ℕ → ℕ
  requiredBytes : ℕ → ℕ → ℕ
  rootLeafOracle : List ℕ → Bool

/-- Source: `DynamicCollection` — `Inline` holds the leaf pairs inline,
`Subtree` stores a nested tree (vals plus the root kind the oracle would
report for them). -/
inductive DynColl where
  | inline (vals : List ℕ)
  | subtreeC (vals : List ℕ) (rootLeaf : Bool)
deriving DecidableEq

def collVals : DynColl → List ℕ
  | .inline l => l
  | .subtreeC l _ => l

def collValsO : Option DynColl → List ℕ
  | none => []
  | some d => collVals d

/-- Ordered insertion at the position found by `accessor.position` (no
duplicates — `found` short-circuits). -/
def insertSorted (v : ℕ) : List ℕ → List ℕ
  | [] => [v]
  | x :: xs => if v < x then v :: x :: xs else if v = x then x :: xs else x :: insertSorted v xs

/-- Total encoded pair bytes of a leaf (`length_of_pairs(0, num_pairs)`; the
`()` values are zero-sized). -/
def inlineLen (env : MMEnv) (l : List ℕ) : ℕ := (l.map env.vlen).sum

/-- The single-leaf encoding size of a value list
(`RawLeafBuilder::required_bytes(num_pairs, pair_bytes)`). -/
def requiredInline (env : MMEnv) (l : List ℕ) : ℕ :=
  env.requiredBytes l.length (inlineLen env l)

/-- Source: `MultimapTable::insert(key, value)`, as the transformation of
the key's stored collection; the returned `Bool` is `existed`. Absent key:
build a one-pair inline leaf, or a fresh subtree when it would not fit.
Inline: `position/found`; found returns `true` without mutation; else
rebuild inline if the enlarged leaf stays under `page_size / 2`, else
promote to a subtree. Subtree: insert into the nested tree and store the new
root. -/
def mmInsert (env : MMEnv) (v : ℕ) : Option DynColl → Bool × DynColl
  | some (DynColl.inline l) =>
    if v ∈ l then (true, DynColl.inline l)
    else
      if env.requiredBytes (l.length + 1) (inlineLen env l + env.vlen v) <
          env.pageSize / 2 then
        (false, DynColl.inline (insertSorted v l))
      else
        (false, DynColl.subtreeC (insertSorted v l)
          (env.rootLeafOracle (insertSorted v l)))
  | some (DynColl.subtreeC l _) =>
    (decide (v ∈ l), DynColl.subtreeC (insertSorted v l)
      (env.rootLeafOracle (insertSorted v l)))
  | none =>
    if env.requiredBytes 1 (env.vlen v) < env.pageSize / 2 then
      (false, DynColl.inline [v])
    else (false, DynColl.subtreeC [v] (env.rootLeafOracle [v]))

/-- Source: `MultimapTable::remove(key, value)` as the transformation of the
key's stored collection. Inline: not found returns `false`; the last pair
removes the outer key; else rebuild inline. Subtree: remove from the nested
tree; an empty tree removes the outer key; a leaf root whose total bytes are
under `page_size / 2` demotes to inline; otherwise store the new root. -/
def mmRemove (env : MMEnv) (v : ℕ) : Option DynColl → Bool × Option DynColl
  | none => (false, none)
  | some (DynColl.inline l) =>
    if v ∈ l then
      if l.length = 1 then (true, none)
      else (true, some (DynColl.inline (l.erase v)))
    else (false, some (DynColl.inline l))
  | some (DynColl.subtreeC l _) =>
    if (l.erase v).isEmpty then (decide (v ∈ l), none)
    else
      if env.rootLeafOracle (l.erase v) = true ∧
          requiredInline env (l.erase v) < env.pageSize / 2 then
        (decide (v ∈ l), some (DynColl.inline (l.erase v)))
      else
        (decide (v ∈ l), some (DynColl.subtreeC (l.erase v)
          (env.rootLeafOracle (l.erase v))))

theorem mem_insertSorted (v : ℕ) : ∀ l : List ℕ, v ∈ insertSorted v l := by
  intro l
  induction l with
  | nil => simp [insertSorted]
  | cons x xs ih =>
    simp only [insertSorted]
    by_cases h1 : v < x
    · rw [if_pos h1]
      exact List.mem_cons_self v _
    · rw [if_neg h1]
      by_cases h2 : v = x
      · rw [if_pos h2]
        rw [h2]
        exact List.mem_cons_self x xs
      · rw [if_neg h2]
        exact List.mem_cons_of_mem x ih

theorem mem_insertSorted_cases {y v : ℕ} :
    ∀ {l : List ℕ}, y ∈ insertSorted v l → y = v ∨ y ∈ l := by
  intro l
  induction l with
  | nil =>
    intro h
    simp [insertSorted] at h
    exact Or.inl h
  | cons x xs ih =>
    intro h
    simp only [insertSorted] at h
    by_cases h1 : v < x
    · rw [if_pos h1] at h
      rcases List.mem_cons.mp h with rfl | h2
      · exact Or.inl rfl
      · exact Or.inr h2
    · rw [if_neg h1] at h
      by_cases h2 : v = x
      · rw [if_pos h2] at h
        exact Or.inr h
      · rw [if_neg h2] at h
        rcases List.mem_cons.mp h with rfl | h3
        · exact Or.inr (List.mem_cons_self y xs)
        · rcases ih h3 with h4 | h4
          · exact Or.inl h4
          · exact Or.inr (List.mem_cons_of_mem x h4)

theorem pairwise_insertSorted :
    ∀ {l : List ℕ}, l.Pairwise (· < ·) → ∀ v, (insertSorted v l).Pairwise (· < ·) := by
  intro l
  induction l with
  | nil =>
    intro h v
    simp [insertSorted]
  | cons x xs ih =>
    intro h v
    obtain ⟨hx, hxs⟩ := List.pairwise_cons.mp h
    simp only [insertSorted]
    by_cases h1 : v < x
    · rw [if_pos h1]
      refine List.pairwise_cons.mpr ⟨?_, h⟩
      intro y hy
      rcases List.mem_cons.mp hy with rfl | hy2
      · exact h1
      · exact lt_trans h1 (hx y hy2)
    · rw [if_neg h1]
      by_cases h2 : v = x
      · rw [if_pos h2]
        exact h
      · rw [if_neg h2]
        refine List.pairwise_cons.mpr ⟨?_, ih hxs v⟩
        intro y hy
        rcases mem_insertSorted_cases hy with rfl | hy2
        · omega
        · exact hx y hy2

theorem insertSorted_of_mem :
    ∀ {l : List ℕ}, l.Pairwise (· < ·) → ∀ {v}, v ∈ l → insertSorted v l = l := by
  intro l
  induction l with
  | nil =>
    intro h v hv
    simp at hv
  | cons x xs ih =>
    intro h v hv
    obtain ⟨hx, hxs⟩ := List.pairwise_cons.mp h
    simp only [insertSorted]
    rcases List.mem_cons.mp hv with rfl | hv2
    · rw [if_neg (lt_irrefl v), if_pos rfl]
    · have hlt : x < v := hx v hv2
      rw [if_neg (by omega), if_neg (by omega), ih hxs hv2]

/-- **C3.** The stored `DynamicCollection` is `Inline` exactly when the
single-leaf encoding fits under `page_size / 2`: `insert` of a new value on
an `Inline` collection promotes to `Subtree` precisely when the enlarged
inline leaf encoding would reach or exceed the threshold (otherwise it
rebuilds inline); `remove` on a `Subtree` demotes to `Inline` precisely when
the nested tree's root becomes a leaf whose total bytes are under the
threshold; an insert of a present value mutates nothing; and all transitions
leave the key's value list determined by the pure insert/erase alone. -/
theorem C3_threshold_transitions (env : MMEnv) (l : List ℕ) (v : ℕ) (rl : Bool) :
    (v ∉ l →
      (env.requiredBytes (l.length + 1) (inlineLen env l + env.vlen v) <
          env.pageSize / 2 →
        mmInsert env v (some (DynColl.inline l)) =
          (false, DynColl.inline (insertSorted v l))) ∧
      (env.pageSize / 2 ≤
          env.requiredBytes (l.length + 1) (inlineLen env l + env.vlen v) →
        mmInsert env v (some (DynColl.inline l)) =
          (false, DynColl.subtreeC (insertSorted v l)
            (env.rootLeafOracle (insertSorted v l))))) ∧
    (v ∈ l → mmInsert env v (some (DynColl.inline l)) = (true, DynColl.inline l)) ∧
    (l.erase v ≠ [] →
      (env.rootLeafOracle (l.erase v) = true ∧
          requiredInline env (l.erase v) < env.pageSize / 2 →
        mmRemove env v (some (DynColl.subtreeC l rl)) =
          (decide (v ∈ l), some (DynColl.inline (l.erase v)))) ∧
      (¬ (env.rootLeafOracle (l.erase v) = true ∧
          requiredInline env (l.erase v) < env.pageSize / 2) →
        mmRemove env v (some (DynColl.subtreeC l rl)) =
          (decide (v ∈ l), some (DynColl.subtreeC (l.erase v)
            (env.rootLeafOracle (l.erase v)))))) ∧
    collVals (mmInsert env v (some (DynColl.inline l))).2 =
      (if v ∈ l then l else insertSorted v l) ∧
    collValsO (mmRemove env v (some (DynColl.subtreeC l rl))).2 = l.erase v := by
  refine ⟨?_, ?_, ?_, ?_, ?_⟩
  · intro hnm
    constructor
    · intro hfits
      simp only [mmInsert]
      rw [if_neg hnm, if_pos hfits]
    · intro hover
      simp only [mmInsert]
      rw [if_neg hnm, if_neg (by omega)]
  · intro hm
    simp only [mmInsert]
    rw [if_pos hm]
  · intro hne
    have hie : ¬ (l.erase v).isEmpty := by
      simpa [List.isEmpty_iff] using hne
    constructor
    · intro hdem
      simp only [mmRemove]
      rw [if_neg hie, if_pos hdem]
    · intro hndem
      simp only [mmRemove]
      rw [if_neg hie, if_neg hndem]
  · simp only [mmInsert]
    by_cases hm : v ∈ l
    · rw [if_pos hm, if_pos hm]
      rfl
    · rw [if_neg hm, if_neg hm]
      by_cases hfits : env.requiredBytes (l.length + 1)
          (inlineLen env l + env.vlen v) < env.pageSize / 2
      · rw [if_pos hfits]
        rfl
      · rw [if_neg hfits]
        rfl
  · simp only [mmRemove]
    by_cases hie : (l.erase v).isEmpty
    · rw [if_pos hie]
      show ([] : List ℕ) = l.erase v
      rw [List.isEmpty_iff] at hie
      rw [hie]
    · rw [if_neg hie]
      by_cases hdem : env.rootLeafOracle (l.erase v) = true ∧
          requiredInline env (l.erase v) < env.pageSize / 2
      · rw [if_pos hdem]
        rfl
      · rw [if_neg hdem]
        rfl

def c3Env : MMEnv := ⟨8, fun _ => 1, fun n b => 2 * n + b, fun _ => true⟩

theorem C3_witness :
    mmInsert c3Env 3 (some (DynColl.inline [1, 2])) =
      (false, DynColl.subtreeC (insertSorted 3 [1, 2])
        (c3Env.rootLeafOracle (insertSorted 3 [1, 2]))) :=
  ((C3_threshold_transitions c3Env [1, 2] 3 true).1 (by decide)).2 (by decide)

/-- **C9.** Multimap insert is idempotent: whatever collection a successful
`insert(k, v)` stores (starting from an absent key, an inline collection, or
a subtree, with values sorted and distinct), a second `insert(k, v)` returns
`true` and stores the identical collection — in the inline case it returns
before mutating anything, and in every case the value list is unchanged. -/
theorem C9_insert_idempotent (env : MMEnv) (c : Option DynColl) (v : ℕ)
    (hs : (collValsO c).Pairwise (· < ·)) :
    ∀ b c2, mmInsert env v c = (b, c2) → mmInsert env v (some c2) = (true, c2) := by
  intro b c2 h
  cases c with
  | none =>
    simp only [mmInsert] at h
    by_cases hreq : env.requiredBytes 1 (env.vlen v) < env.pageSize / 2
    · rw [if_pos hreq] at h
      obtain ⟨-, hc2⟩ := Prod.mk.inj h
      rw [← hc2]
      simp only [mmInsert]
      rw [if_pos (List.mem_singleton.mpr rfl)]
    · rw [if_neg hreq] at h
      obtain ⟨-, hc2⟩ := Prod.mk.inj h
      rw [← hc2]
      simp only [mmInsert]
      have he : insertSorted v [v] = [v] :=
        insertSorted_of_mem (by simp) (List.mem_singleton.mpr rfl)
      rw [he]
      simp
  | some d =>
    cases d with
    | inline l =>
      have hsl : l.Pairwise (· < ·) := hs
      simp only [mmInsert] at h
      by_cases hm : v ∈ l
      · rw [if_pos hm] at h
        obtain ⟨-, hc2⟩ := Prod.mk.inj h
        rw [← hc2]
        simp only [mmInsert]
        rw [if_pos hm]
      · rw [if_neg hm] at h
        by_cases hfits : env.requiredBytes (l.length + 1)
            (inlineLen env l + env.vlen v) < env.pageSize / 2
        · rw [if_pos hfits] at h
          obtain ⟨-, hc2⟩ := Prod.mk.inj h
          rw [← hc2]
          simp only [mmInsert]
          rw [if_pos (mem_insertSorted v l)]
        · rw [if_neg hfits] at h
          obtain ⟨-, hc2⟩ := Prod.mk.inj h
          rw [← hc2]
          simp only [mmInsert]
          have he : insertSorted v (insertSorted v l) = insertSorted v l :=
            insertSorted_of_mem (pairwise_insertSorted hsl v) (mem_insertSorted v l)
          rw [he]
          simp [mem_insertSorted v l]
    | subtreeC l rl =>
      have hsl : l.Pairwise (· < ·) := hs
      simp only [mmInsert] at h
      obtain ⟨-, hc2⟩ := Prod.mk.inj h
      rw [← hc2]
      simp only [mmInsert]
      have he : insertSorted v (insertSorted v l) = insertSorted v l :=
        insertSorted_of_mem (pairwise_insertSorted hsl v) (mem_insertSorted v l)
      rw [he]
      simp [mem_insertSorted v l]

theorem C9_witness :
    mmInsert c3Env 1 (some (DynColl.inline [1])) = (true, DynColl.inline [1]) :=
  C9_insert_idempotent c3Env (some (DynColl.inline [1])) 1 (by decide) true
    (DynColl.inline [1]) (by decide)

end Multimap

end Redb
